import Mathlib

/-!
Shallow embedding of the greedy join-reorder solver
(planner/core/rule_join_reorder_greedy.go).

The solver receives a join group (a list of relational subtrees), a fixed set
of equality edges between their columns, and a list of residual predicates.
It greedily grows connected join trees, one per connected component of the
equality-edge graph, and finally combines the component trees with
predicate-free (cartesian) joins.

External collaborators (statistics derivation, the join-builder, schema and
expression utilities of the expression package) are not part of the source
file; they are modelled from the spec, each with a doc comment saying so.
Machine floating point is modelled by exact integer arithmetic (the solver
only ever adds and compares costs); the only float constant the algorithm
relies on is math.MaxFloat64, an integer, embedded by its exact value.
-/

namespace JoinReorderGreedy

open scoped List

/-- Columns are identified by a numeric id (tidb column unique ids). -/
abbrev Col := Nat

/-- An equality edge `lCol = rCol` between two columns, stored with the fixed
orientation of its original predicate form (GetArgs()[0], GetArgs()[1]). -/
structure EqEdge where
  lCol : Col
  rCol : Col
deriving DecidableEq, Repr

/-- Modelled from the spec: a ResidualPredicate is any predicate not used as a
structural edge; it "carries the set of columns it references".  The id keeps
distinct predicates with the same column set distinguishable. -/
structure OtherCond where
  id : Nat
  cols : List Col
deriving DecidableEq, Repr

/-- A logical plan: either an opaque group member (an "OperatorSubtree" handle,
with its output schema) or a join built by the solver from two subtrees, the
matched equality edges and the attached residual predicates. -/
inductive Plan where
  | leaf (id : Nat) (schema : List Col)
  | join (left right : Plan) (eqConds : List EqEdge) (otherConds : List OtherCond)
deriving DecidableEq, Repr

/-- Modelled from the spec: expression.MergeSchema appends the two column
lists; member schemas are disjoint in practice, so the append realizes the
"union of both subtrees' output columns". Only membership matters below. -/
def mergeSchema (l r : List Col) : List Col := l ++ r

/-- Output schema of a plan.  A join's schema is the merged schema of its two
children (the join-builder collaborator's contract). -/
def Plan.schema : Plan → List Col
  | .leaf _ s => s
  | .join l r _ _ => mergeSchema l.schema r.schema

/-- Modelled from the spec: expression.ExprFromSchema holds when every column
the predicate references is contained in the given schema. -/
def exprFromSchema (e : OtherCond) (schema : List Col) : Bool :=
  e.cols.all fun c => schema.contains c

/-- Modelled from the spec: the external join-builder collaborator
newJoinWithEdges builds the inner join of the two subtrees filtered by the
matched equality edges and the attached residual predicates. -/
def newJoinWithEdges (left right : Plan) (eqConds : List EqEdge)
    (otherConds : List OtherCond) : Plan :=
  Plan.join left right eqConds otherConds

/-- jrNode pairs a plan with its cumulative cost estimate. -/
structure jrNode where
  p : Plan
  cumCost : ℤ
deriving DecidableEq, Repr

/-- The external collaborators of the solver:
rowCount is the row-count estimate stored in a plan's statsInfo(), and
deriveErr models recursiveDeriveStats, which either succeeds (none) or fails
with an error.  Modelled from the spec ("Stats/Cost Collaborator"). -/
structure Env where
  rowCount : Plan → ℤ
  deriveErr : Plan → Option String

/-- The mutable state of the joinReorderGreedySolver: the remaining join
group, the fixed equality-edge set, and the pending residual predicates. -/
structure SolverState where
  curJoinGroup : List jrNode
  eqEdges : List EqEdge
  otherConds : List OtherCond
deriving DecidableEq, Repr

/-- Modelled from the spec: baseNodeCumCost seeds a member's cumulative cost
as the sum of the row-count estimates along its subtree. -/
def baseNodeCumCost (env : Env) : Plan → ℤ
  | .leaf i s => env.rowCount (.leaf i s)
  | .join l r es os =>
      env.rowCount (.join l r es os) + baseNodeCumCost env l + baseNodeCumCost env r

/-- Modelled from the spec: cumulative join cost =
RowCount(join) + CumCount(lhs) + CumCount(rhs). -/
def calcJoinCumCost (env : Env) (joinPlan : Plan) (lNode rNode : jrNode) : ℤ :=
  env.rowCount joinPlan + lNode.cumCost + rNode.cumCost

/-- The exact value of math.MaxFloat64 = (2^53 - 1) * 2^971, the sentinel the
grow step starts its best-cost search from (written as a literal so that the
kernel can evaluate comparisons against it; see maxFloat64_eq below). -/
def maxFloat64 : ℤ := 179769313486231570814527423731704356798070567525844996598917476803157260780028538760589558632766878171540458953514382464234321326889464182768467546703537516986049910576551282076245490090389328944075868508455133942304583236903222948165808559332123348274797826204144723168738177180919299881250404026184124858368

/-- The literal above is the exact value of (2^53 - 1) * 2^971. -/
theorem maxFloat64_eq : maxFloat64 = (2 ^ 53 - 1) * 2 ^ 971 := by
  norm_num [maxFloat64]

/-- The scan over s.eqEdges in checkConnectionAndMakeJoin: an edge is used
as-is when the left subtree holds its left column and the right subtree its
right column, and used with the two columns swapped in the opposite case. -/
def collectUsedEdges (lSchema rSchema : List Col) : List EqEdge → List EqEdge
  | [] => []
  | edge :: rest =>
      if edge.lCol ∈ lSchema ∧ edge.rCol ∈ rSchema then
        edge :: collectUsedEdges lSchema rSchema rest
      else if edge.lCol ∈ rSchema ∧ edge.rCol ∈ lSchema then
        { lCol := edge.rCol, rCol := edge.lCol } :: collectUsedEdges lSchema rSchema rest
      else
        collectUsedEdges lSchema rSchema rest

/-- checkConnectionAndMakeJoin: collect the matching edges; with no match
return (nil, nil); otherwise partition a copy of s.otherConds against the
merged schema, attach the covered ones to the new join and return the rest as
the pending list.  The whole solver state is threaded through to record that
the method writes none of its fields. -/
def checkConnectionAndMakeJoin (st : SolverState) (leftNode rightNode : Plan) :
    (Option Plan × List OtherCond) × SolverState :=
  let usedEdges := collectUsedEdges leftNode.schema rightNode.schema st.eqEdges
  match usedEdges with
  | [] => ((none, []), st)
  | e :: es =>
      let mergedSchema := mergeSchema leftNode.schema rightNode.schema
      let parts := st.otherConds.partition fun expr => exprFromSchema expr mergedSchema
      ((some (newJoinWithEdges leftNode rightNode (e :: es) parts.1), parts.2), st)

/-- The running best of a grow-step scan: bestCost starts at math.MaxFloat64,
bestIdx at -1, bestJoin and finalRemainOthers at nil. -/
structure Best where
  bestCost : ℤ
  bestIdx : Int
  bestJoin : Option Plan
  finalRemainOthers : List OtherCond
deriving DecidableEq, Repr

/-- The initial accumulator of a grow-step scan. -/
def initBest : Best :=
  { bestCost := maxFloat64, bestIdx := -1, bestJoin := none, finalRemainOthers := [] }

/-- One grow-step scan of constructConnectedJoinTree (the `for i, node` loop):
try to join the current tree with every remaining node, derive the stats of
each candidate (a failure aborts with that error), and keep the strictly
cheapest candidate seen so far. -/
def findBest (env : Env) (curJoinTree : jrNode) :
    List jrNode → Nat → SolverState → Best → Except String (Best × SolverState)
  | [], _, st, acc => .ok (acc, st)
  | node :: rest, i, st, acc =>
      match checkConnectionAndMakeJoin st curJoinTree.p node.p with
      | ((none, _), st1) => findBest env curJoinTree rest (i + 1) st1 acc
      | ((some newJoin, remainOthers), st1) =>
          match env.deriveErr newJoin with
          | some e => .error e
          | none =>
              let curCost := calcJoinCumCost env newJoin curJoinTree node
              if acc.bestCost > curCost then
                findBest env curJoinTree rest (i + 1) st1
                  { bestCost := curCost, bestIdx := Int.ofNat i,
                    bestJoin := some newJoin, finalRemainOthers := remainOthers }
              else
                findBest env curJoinTree rest (i + 1) st1 acc

/-- The grow loop of constructConnectedJoinTree: run the scan; if no candidate
connected, the component is exhausted; otherwise commit the winner (remove it
from the group, adopt its cost and its pending residual list) and repeat.
The loop consumes one unit of fuel per iteration; each committed merge removes
one node from the group, so the allotment given by constructConnectedJoinTree
is never exhausted (proved below). -/
def growLoop (env : Env) : Nat → jrNode → SolverState → Except String (jrNode × SolverState)
  | 0, curJoinTree, st => .ok (curJoinTree, st)
  | fuel + 1, curJoinTree, st =>
      match findBest env curJoinTree st.curJoinGroup 0 st initBest with
      | .error e => .error e
      | .ok (best, st1) =>
          match best.bestJoin with
          | none => .ok (curJoinTree, st1)
          | some bestJoin =>
              growLoop env fuel { p := bestJoin, cumCost := best.bestCost }
                { st1 with
                  curJoinGroup := st1.curJoinGroup.eraseIdx best.bestIdx.toNat,
                  otherConds := best.finalRemainOthers }

/-- constructConnectedJoinTree: pop the head of the (sorted) join group as the
seed and grow it to exhaustion.  Callers guarantee a non-empty group (the Go
indexing would fault otherwise); the empty case is unreachable from solve. -/
def constructConnectedJoinTree (env : Env) (st : SolverState) :
    Except String (jrNode × SolverState) :=
  match st.curJoinGroup with
  | [] => .error "constructConnectedJoinTree on an empty join group"
  | seed :: rest =>
      growLoop env (rest.length + 1) seed { st with curJoinGroup := rest }

/-- The seeding loop of solve: derive each member's stats (a failure aborts
with that error) and wrap it with its base cumulative cost. -/
def seedJoinGroup (env : Env) : List Plan → Except String (List jrNode)
  | [] => .ok []
  | p :: rest =>
      match env.deriveErr p with
      | some e => .error e
      | none =>
          match seedJoinGroup env rest with
          | .error e => .error e
          | .ok g => .ok ({ p := p, cumCost := baseNodeCumCost env p } :: g)

/-- The outer component loop of solve: while the group is non-empty, grow one
connected component to exhaustion and collect its tree.  Every iteration pops
at least the seed, so the allotment given by solve is never exhausted. -/
def componentLoop (env : Env) : Nat → SolverState → List Plan → Except String (List Plan)
  | 0, _, acc => .ok acc
  | fuel + 1, st, acc =>
      match st.curJoinGroup with
      | [] => .ok acc
      | _ :: _ =>
          match constructConnectedJoinTree env st with
          | .error e => .error e
          | .ok (newNode, st1) => componentLoop env fuel st1 (acc ++ [newNode.p])

/-- One pairing round of makeBushyJoin: adjacent component trees are combined
by predicate-free cartesian joins, an odd tail is kept as is. -/
def bushyRound : List Plan → List Plan
  | p :: q :: rest => Plan.join p q [] [] :: bushyRound rest
  | ps => ps

/-- Modelled from the spec: makeBushyJoin combines the component trees into
one final tree by successive predicate-free (cross) joins, halving the list
each round; a single tree is returned unchanged.  The empty case (unreachable
from a non-empty group; the Go indexing would fault) yields a dummy leaf. -/
def makeBushyJoinF : Nat → List Plan → Plan
  | 0, ps => ps.headD (Plan.leaf 0 [])
  | fuel + 1, ps =>
      if ps.length ≤ 1 then ps.headD (Plan.leaf 0 [])
      else makeBushyJoinF fuel (bushyRound ps)

/-- makeBushyJoin with enough rounds for its input. -/
def makeBushyJoin (ps : List Plan) : Plan := makeBushyJoinF ps.length ps

/-- solve: derive stats and seed costs for every member (a failure returns
(nil, err)), stable-sort the group by ascending cumulative cost (the external
sort.SliceStable, modelled by the stable insertion sort), repeatedly
construct connected join trees (a failure returns (nil, err)), and finally
combine the component trees into a bushy tree.  A fresh solver starts with an
empty curJoinGroup; eqEdges and otherConds are its construction arguments. -/
def solve (env : Env) (eqEdges : List EqEdge) (otherConds : List OtherCond)
    (joinNodePlans : List Plan) : Option Plan × Option String :=
  match seedJoinGroup env joinNodePlans with
  | .error e => (none, some e)
  | .ok seeded =>
      let sorted := seeded.insertionSort fun a b => a.cumCost ≤ b.cumCost
      match componentLoop env (sorted.length + 1)
          { curJoinGroup := sorted, eqEdges := eqEdges, otherConds := otherConds } [] with
      | .error e => (none, some e)
      | .ok cartesianGroup => (some (makeBushyJoin cartesianGroup), none)

/-! ### Basic facts about checkConnectionAndMakeJoin -/

/-- The connectivity check never writes the solver state. -/
theorem checkConnectionAndMakeJoin_state (st : SolverState) (l r : Plan) :
    (checkConnectionAndMakeJoin st l r).2 = st := by
  unfold checkConnectionAndMakeJoin
  cases collectUsedEdges l.schema r.schema st.eqEdges <;> simp

/-- Membership in the collected edge list: a used edge is an original edge
taken as-is (left/right columns on the left/right side), or, when the as-is
test fails, the swap of an original edge whose columns sit on the opposite
sides. -/
theorem mem_collectUsedEdges {ls rs : List Col} {edges : List EqEdge} {e : EqEdge} :
    e ∈ collectUsedEdges ls rs edges ↔
      ∃ d ∈ edges,
        (d.lCol ∈ ls ∧ d.rCol ∈ rs ∧ e = d) ∨
        (¬(d.lCol ∈ ls ∧ d.rCol ∈ rs) ∧ d.lCol ∈ rs ∧ d.rCol ∈ ls ∧
          e = { lCol := d.rCol, rCol := d.lCol }) := by
  induction edges with
  | nil => simp [collectUsedEdges]
  | cons d rest ih =>
      by_cases h1 : d.lCol ∈ ls ∧ d.rCol ∈ rs
      · simp only [collectUsedEdges, if_pos h1, List.mem_cons, ih]
        aesop
      · by_cases h2 : d.lCol ∈ rs ∧ d.rCol ∈ ls
        · simp only [collectUsedEdges, if_neg h1, if_pos h2, List.mem_cons, ih]
          aesop
        · simp only [collectUsedEdges, if_neg h1, if_neg h2, ih, List.mem_cons]
          aesop

/-- The collected edge list is non-empty exactly when some edge matches in one
of the two orientations. -/
theorem collectUsedEdges_ne_nil {ls rs : List Col} {edges : List EqEdge} :
    collectUsedEdges ls rs edges ≠ [] ↔
      ∃ d ∈ edges, (d.lCol ∈ ls ∧ d.rCol ∈ rs) ∨ (d.lCol ∈ rs ∧ d.rCol ∈ ls) := by
  induction edges with
  | nil => simp [collectUsedEdges]
  | cons d rest ih =>
      by_cases h1 : d.lCol ∈ ls ∧ d.rCol ∈ rs
      · simp only [collectUsedEdges, if_pos h1, List.mem_cons, ne_eq]
        constructor
        · intro _
          exact ⟨d, Or.inl rfl, Or.inl h1⟩
        · intro _
          simp
      · by_cases h2 : d.lCol ∈ rs ∧ d.rCol ∈ ls
        · simp only [collectUsedEdges, if_neg h1, if_pos h2, List.mem_cons, ne_eq]
          constructor
          · intro _
            exact ⟨d, Or.inl rfl, Or.inr h2⟩
          · intro _
            simp
        · simp only [collectUsedEdges, if_neg h1, if_neg h2, ih, List.mem_cons]
          aesop

/-- The connectivity check, written with its unchanged state pulled out. -/
theorem checkConnectionAndMakeJoin_eta (st : SolverState) (l r : Plan) :
    checkConnectionAndMakeJoin st l r = ((checkConnectionAndMakeJoin st l r).1, st) := by
  exact Prod.ext rfl (checkConnectionAndMakeJoin_state st l r)

/-- Value of a failed connectivity check. -/
theorem checkConnectionAndMakeJoin_of_nil (st : SolverState) (l r : Plan)
    (h : collectUsedEdges l.schema r.schema st.eqEdges = []) :
    (checkConnectionAndMakeJoin st l r).1 = (none, []) := by
  unfold checkConnectionAndMakeJoin
  rw [h]

/-- Value of a successful connectivity check: the candidate join carries the
matched edges and the covered residual predicates, the pending list is the
uncovered rest. -/
theorem checkConnectionAndMakeJoin_of_cons (st : SolverState) (l r : Plan)
    (e : EqEdge) (es : List EqEdge)
    (h : collectUsedEdges l.schema r.schema st.eqEdges = e :: es) :
    (checkConnectionAndMakeJoin st l r).1 =
      (some (Plan.join l r (e :: es)
          (st.otherConds.filter fun c => exprFromSchema c (mergeSchema l.schema r.schema))),
        st.otherConds.filter fun c => !exprFromSchema c (mergeSchema l.schema r.schema)) := by
  unfold checkConnectionAndMakeJoin
  rw [h]
  simp only [newJoinWithEdges, List.partition_eq_filter_filter]
  rfl

/-- The cumulative cost at which a remaining node would join the current
tree, when the pair is connectable. -/
def candidateCost (env : Env) (st : SolverState) (tree node : jrNode) : Option ℤ :=
  match (checkConnectionAndMakeJoin st tree.p node.p).1 with
  | (none, _) => none
  | (some nj, _) => some (calcJoinCumCost env nj tree node)

/-- A grow-step scan result that committed the candidate at offset j of the
scanned list. -/
def ScanHit (env : Env) (st : SolverState) (tree : jrNode) (g : List jrNode)
    (i0 : Nat) (b : Best) : Prop :=
  ∃ j node nj rem, g[j]? = some node ∧
    (checkConnectionAndMakeJoin st tree.p node.p).1 = (some nj, rem) ∧
    env.deriveErr nj = none ∧
    b.bestJoin = some nj ∧ b.finalRemainOthers = rem ∧
    b.bestIdx = Int.ofNat (i0 + j) ∧
    b.bestCost = calcJoinCumCost env nj tree node

/-- One unfolding of the grow-step scan, with the unchanged solver state
already erased from the recursive calls. -/
theorem findBest_cons (env : Env) (tree node : jrNode) (rest : List jrNode)
    (i : Nat) (st : SolverState) (acc : Best) :
    findBest env tree (node :: rest) i st acc =
      match (checkConnectionAndMakeJoin st tree.p node.p).1 with
      | (none, _) => findBest env tree rest (i + 1) st acc
      | (some newJoin, remainOthers) =>
          match env.deriveErr newJoin with
          | some e => .error e
          | none =>
              if acc.bestCost > calcJoinCumCost env newJoin tree node then
                findBest env tree rest (i + 1) st
                  { bestCost := calcJoinCumCost env newJoin tree node, bestIdx := Int.ofNat i,
                    bestJoin := some newJoin, finalRemainOthers := remainOthers }
              else
                findBest env tree rest (i + 1) st acc := by
  rcases hp : (checkConnectionAndMakeJoin st tree.p node.p).1 with ⟨onj, rem⟩
  conv_lhs => rw [findBest, checkConnectionAndMakeJoin_eta st tree.p node.p, hp]
  cases onj <;> rfl

/-- The scan never writes the solver state: on success it hands back exactly
the state it was given. -/
theorem findBest_state (env : Env) (tree : jrNode) :
    ∀ (g : List jrNode) (i : Nat) (st : SolverState) (acc b : Best) (st1 : SolverState),
      findBest env tree g i st acc = .ok (b, st1) → st1 = st := by
  intro g
  induction g with
  | nil =>
      intro i st acc b st1 h
      simp only [findBest, Except.ok.injEq, Prod.mk.injEq] at h
      exact h.2.symm
  | cons node rest ih =>
      intro i st acc b st1 h
      rw [findBest_cons] at h
      rcases hc : (checkConnectionAndMakeJoin st tree.p node.p).1 with ⟨onj, rem⟩
      cases onj with
      | none =>
          simp only [hc] at h
          exact ih _ _ _ _ _ h
      | some nj =>
          cases hd : env.deriveErr nj with
          | some e =>
              simp only [hc, hd] at h
              exact Except.noConfusion h
          | none =>
              simp only [hc, hd] at h
              by_cases hlt : acc.bestCost > calcJoinCumCost env nj tree node
              · rw [if_pos hlt] at h
                exact ih _ _ _ _ _ h
              · rw [if_neg hlt] at h
                exact ih _ _ _ _ _ h

/-- candidateCost of a non-connectable pair. -/
theorem candidateCost_none {env : Env} {st : SolverState} {tree node : jrNode}
    {x : List OtherCond}
    (hc : (checkConnectionAndMakeJoin st tree.p node.p).1 = (none, x)) :
    candidateCost env st tree node = none := by
  unfold candidateCost
  rw [hc]

/-- candidateCost of a connectable pair. -/
theorem candidateCost_some {env : Env} {st : SolverState} {tree node : jrNode}
    {nj : Plan} {rem : List OtherCond}
    (hc : (checkConnectionAndMakeJoin st tree.p node.p).1 = (some nj, rem)) :
    candidateCost env st tree node = some (calcJoinCumCost env nj tree node) := by
  unfold candidateCost
  rw [hc]

/-- A scan hit inside the tail of the list is a hit of the whole list. -/
theorem ScanHit_cons {env : Env} {st : SolverState} {tree : jrNode} {node : jrNode}
    {g : List jrNode} {i0 : Nat} {b : Best} :
    ScanHit env st tree g (i0 + 1) b → ScanHit env st tree (node :: g) i0 b := by
  rintro ⟨j, n, nj, rem, hj, hcheck, hd, h1, h2, h3, h4⟩
  refine ⟨j + 1, n, nj, rem, by simpa using hj, hcheck, hd, h1, h2, ?_, h4⟩
  rw [h3]
  congr 1
  omega

/-- The full characterization of a successful grow-step scan: the result never
costs more than the accumulator; it is either the untouched accumulator or a
strictly cheaper hit inside the scanned list; its cost is a lower bound on the
cost of every connectable candidate of the list; and on an exact cost tie the
earlier scan position wins (comparison is strict, first seen is kept). -/
theorem findBest_ok_spec (env : Env) (tree : jrNode) :
    ∀ (g : List jrNode) (i0 : Nat) (st : SolverState) (acc b : Best) (st1 : SolverState),
      findBest env tree g i0 st acc = .ok (b, st1) →
      acc.bestIdx ≤ (i0 : Int) →
      b.bestCost ≤ acc.bestCost ∧
        (b = acc ∨ (b.bestCost < acc.bestCost ∧ ScanHit env st tree g i0 b)) ∧
        (∀ (j : Nat) (node : jrNode) (c : ℤ), g[j]? = some node →
          candidateCost env st tree node = some c → b.bestCost ≤ c) ∧
        (∀ (j : Nat) (node : jrNode) (c : ℤ), g[j]? = some node →
          candidateCost env st tree node = some c → c = b.bestCost →
            b.bestIdx ≤ (i0 : Int) + (j : Int)) := by
  intro g
  induction g with
  | nil =>
      intro i0 st acc b st1 h hidx
      simp only [findBest, Except.ok.injEq, Prod.mk.injEq] at h
      obtain ⟨rfl, rfl⟩ := h
      refine ⟨le_refl _, Or.inl rfl, ?_, ?_⟩ <;> intro j node c hj <;>
        exact absurd hj (by simp)
  | cons node rest ih =>
      intro i0 st acc b st1 h hidx
      rw [findBest_cons] at h
      rcases hc : (checkConnectionAndMakeJoin st tree.p node.p).1 with ⟨onj, rem⟩
      cases onj with
      | none =>
          simp only [hc] at h
          have hrec := ih (i0 + 1) st acc b st1 h
            (le_trans hidx (by omega))
          obtain ⟨h1, h2, h3, h4⟩ := hrec
          refine ⟨h1, ?_, ?_, ?_⟩
          · rcases h2 with h2 | ⟨hlt, hhit⟩
            · exact Or.inl h2
            · exact Or.inr ⟨hlt, ScanHit_cons hhit⟩
          · intro j n c hj hcost
            cases j with
            | zero =>
                simp only [List.getElem?_cons_zero, Option.some.injEq] at hj
                subst hj
                rw [candidateCost_none hc] at hcost
                exact Option.noConfusion hcost
            | succ j =>
                simp only [List.getElem?_cons_succ] at hj
                exact h3 j n c hj hcost
          · intro j n c hj hcost hceq
            cases j with
            | zero =>
                simp only [List.getElem?_cons_zero, Option.some.injEq] at hj
                subst hj
                rw [candidateCost_none hc] at hcost
                exact Option.noConfusion hcost
            | succ j =>
                simp only [List.getElem?_cons_succ] at hj
                have := h4 j n c hj hcost hceq
                have harith : ((i0 + 1 : Nat) : Int) + (j : Int) = (i0 : Int) + ((j + 1 : Nat) : Int) := by
                  omega
                rw [harith] at this
                exact this
      | some nj =>
          cases hd : env.deriveErr nj with
          | some e =>
              simp only [hc, hd] at h
              exact Except.noConfusion h
          | none =>
              simp only [hc, hd] at h
              have hcostnode := @candidateCost_some env _ _ _ _ _ hc
              by_cases hlt : acc.bestCost > calcJoinCumCost env nj tree node
              · rw [if_pos hlt] at h
                have hrec := ih (i0 + 1) st _ b st1 h (by
                  show Int.ofNat i0 ≤ ((i0 + 1 : Nat) : Int)
                  simp only [Int.ofNat_eq_coe]
                  omega)
                obtain ⟨h1, h2, h3, h4⟩ := hrec
                have hb_le : b.bestCost ≤ calcJoinCumCost env nj tree node := h1
                refine ⟨le_of_lt (lt_of_le_of_lt hb_le hlt), ?_, ?_, ?_⟩
                · rcases h2 with h2 | ⟨hlt2, hhit⟩
                  · subst h2
                    refine Or.inr ⟨hlt, ⟨0, node, nj, rem, by simp, hc, hd, rfl, rfl, by simp, rfl⟩⟩
                  · exact Or.inr ⟨lt_trans hlt2 hlt, ScanHit_cons hhit⟩
                · intro j n c hj hcost
                  cases j with
                  | zero =>
                      simp only [List.getElem?_cons_zero, Option.some.injEq] at hj
                      subst hj
                      rw [hcostnode] at hcost
                      obtain rfl := Option.some.inj hcost
                      exact hb_le
                  | succ j =>
                      simp only [List.getElem?_cons_succ] at hj
                      exact h3 j n c hj hcost
                · intro j n c hj hcost hceq
                  cases j with
                  | zero =>
                      simp only [List.getElem?_cons_zero, Option.some.injEq] at hj
                      subst hj
                      rw [hcostnode] at hcost
                      obtain rfl := Option.some.inj hcost
                      rcases h2 with h2 | ⟨hlt2, hhit⟩
                      · subst h2
                        simp only [Int.ofNat_eq_coe]
                        omega
                      · exact absurd hceq (by
                          intro hx
                          rw [hx] at hlt2
                          exact lt_irrefl _ hlt2)
                  | succ j =>
                      simp only [List.getElem?_cons_succ] at hj
                      have := h4 j n c hj hcost hceq
                      have harith : ((i0 + 1 : Nat) : Int) + (j : Int) = (i0 : Int) + ((j + 1 : Nat) : Int) := by
                        omega
                      rw [harith] at this
                      exact this
              · rw [if_neg hlt] at h
                push_neg at hlt
                have hrec := ih (i0 + 1) st acc b st1 h
                  (le_trans hidx (by omega))
                obtain ⟨h1, h2, h3, h4⟩ := hrec
                refine ⟨h1, ?_, ?_, ?_⟩
                · rcases h2 with h2 | ⟨hlt2, hhit⟩
                  · exact Or.inl h2
                  · exact Or.inr ⟨hlt2, ScanHit_cons hhit⟩
                · intro j n c hj hcost
                  cases j with
                  | zero =>
                      simp only [List.getElem?_cons_zero, Option.some.injEq] at hj
                      subst hj
                      rw [hcostnode] at hcost
                      obtain rfl := Option.some.inj hcost
                      exact le_trans h1 hlt
                  | succ j =>
                      simp only [List.getElem?_cons_succ] at hj
                      exact h3 j n c hj hcost
                · intro j n c hj hcost hceq
                  cases j with
                  | zero =>
                      simp only [List.getElem?_cons_zero, Option.some.injEq] at hj
                      subst hj
                      rw [hcostnode] at hcost
                      obtain rfl := Option.some.inj hcost
                      have hbc : b.bestCost = acc.bestCost :=
                        le_antisymm h1 (by rw [hceq] at hlt; exact hlt)
                      rcases h2 with h2 | ⟨hlt2, hhit⟩
                      · subst h2
                        omega
                      · rw [hbc] at hlt2
                        exact absurd hlt2 (lt_irrefl _)
                  | succ j =>
                      simp only [List.getElem?_cons_succ] at hj
                      have := h4 j n c hj hcost hceq
                      have harith : ((i0 + 1 : Nat) : Int) + (j : Int) = (i0 : Int) + ((j + 1 : Nat) : Int) := by
                        omega
                      rw [harith] at this
                      exact this

/-- A failing scan fails because the stats derivation of some connectable
candidate of the scanned list failed, and it returns exactly that error. -/
theorem findBest_error_spec (env : Env) (tree : jrNode) :
    ∀ (g : List jrNode) (i0 : Nat) (st : SolverState) (acc : Best) (e : String),
      findBest env tree g i0 st acc = .error e →
      ∃ (j : Nat) (node : jrNode) (nj : Plan) (rem : List OtherCond),
        g[j]? = some node ∧
        (checkConnectionAndMakeJoin st tree.p node.p).1 = (some nj, rem) ∧
        env.deriveErr nj = some e := by
  intro g
  induction g with
  | nil =>
      intro i0 st acc e h
      simp only [findBest] at h
      exact Except.noConfusion h
  | cons node rest ih =>
      intro i0 st acc e h
      rw [findBest_cons] at h
      rcases hc : (checkConnectionAndMakeJoin st tree.p node.p).1 with ⟨onj, rem⟩
      cases onj with
      | none =>
          simp only [hc] at h
          obtain ⟨j, n, nj, rem2, hj, hcheck, hd⟩ := ih (i0 + 1) st acc e h
          exact ⟨j + 1, n, nj, rem2, by simpa using hj, hcheck, hd⟩
      | some nj =>
          cases hd : env.deriveErr nj with
          | some e2 =>
              simp only [hc, hd, Except.error.injEq] at h
              subst h
              exact ⟨0, node, nj, rem, by simp, hc, hd⟩
          | none =>
              simp only [hc, hd] at h
              by_cases hlt : acc.bestCost > calcJoinCumCost env nj tree node
              · rw [if_pos hlt] at h
                obtain ⟨j, n, nj2, rem2, hj, hcheck, hd2⟩ := ih (i0 + 1) st _ e h
                exact ⟨j + 1, n, nj2, rem2, by simpa using hj, hcheck, hd2⟩
              · rw [if_neg hlt] at h
                obtain ⟨j, n, nj2, rem2, hj, hcheck, hd2⟩ := ih (i0 + 1) st acc e h
                exact ⟨j + 1, n, nj2, rem2, by simpa using hj, hcheck, hd2⟩

/-- When every connectable candidate of the list costs at least the
math.MaxFloat64 sentinel, the scan never updates its accumulator: the strict
comparison against a best cost that starts no higher than the sentinel can
never fire. -/
theorem findBest_no_commit (env : Env) (tree : jrNode) :
    ∀ (g : List jrNode) (i0 : Nat) (st : SolverState) (acc b : Best) (st1 : SolverState),
      findBest env tree g i0 st acc = .ok (b, st1) →
      acc.bestCost ≤ maxFloat64 →
      (∀ (j : Nat) (node : jrNode) (c : ℤ), g[j]? = some node →
        candidateCost env st tree node = some c → maxFloat64 ≤ c) →
      b = acc := by
  intro g
  induction g with
  | nil =>
      intro i0 st acc b st1 h hacc hbig
      simp only [findBest, Except.ok.injEq, Prod.mk.injEq] at h
      exact h.1.symm
  | cons node rest ih =>
      intro i0 st acc b st1 h hacc hbig
      rw [findBest_cons] at h
      rcases hc : (checkConnectionAndMakeJoin st tree.p node.p).1 with ⟨onj, rem⟩
      cases onj with
      | none =>
          simp only [hc] at h
          exact ih (i0 + 1) st acc b st1 h hacc
            (fun j n c hj hcost => hbig (j + 1) n c (by simpa using hj) hcost)
      | some nj =>
          cases hd : env.deriveErr nj with
          | some e =>
              simp only [hc, hd] at h
              exact Except.noConfusion h
          | none =>
              simp only [hc, hd] at h
              have hcostnode := @candidateCost_some env _ _ _ _ _ hc
              have hbig0 : maxFloat64 ≤ calcJoinCumCost env nj tree node :=
                hbig 0 node _ (by simp) hcostnode
              have hnlt : ¬ acc.bestCost > calcJoinCumCost env nj tree node := by
                push_neg
                exact le_trans hacc hbig0
              rw [if_neg hnlt] at h
              exact ih (i0 + 1) st acc b st1 h hacc
                (fun j n c hj hcost => hbig (j + 1) n c (by simpa using hj) hcost)

/-- A scan that starts from the initial accumulator and reports a committed
candidate found it inside the list, strictly below the sentinel. -/
theorem findBest_commit (env : Env) (tree : jrNode) {g : List jrNode}
    {st : SolverState} {b : Best} {st1 : SolverState}
    (h : findBest env tree g 0 st initBest = .ok (b, st1))
    (hj : b.bestJoin.isSome) :
    ScanHit env st tree g 0 b ∧ b.bestCost < maxFloat64 := by
  have hspec := findBest_ok_spec env tree g 0 st initBest b st1 h (by
    show (-1 : Int) ≤ (0 : Int)
    omega)
  rcases hspec.2.1 with hb | ⟨hlt, hhit⟩
  · rw [hb] at hj
    simp [initBest] at hj
  · exact ⟨hhit, by simpa [initBest] using hlt⟩

/-- The committed index of a scan hit points inside the scanned list, so
removing it shrinks the list by exactly one. -/
theorem ScanHit_idx_lt {env : Env} {st : SolverState} {tree : jrNode}
    {g : List jrNode} {b : Best} (h : ScanHit env st tree g 0 b) :
    b.bestIdx.toNat < g.length ∧
      (g.eraseIdx b.bestIdx.toNat).length + 1 = g.length := by
  obtain ⟨j, node, nj, rem, hj, _, _, _, _, hidx, _⟩ := h
  have hjlt : j < g.length := by
    by_contra hge
    push_neg at hge
    rw [List.getElem?_eq_none hge] at hj
    exact Option.noConfusion hj
  have htn : b.bestIdx.toNat = j := by
    rw [hidx]
    simp
  rw [htn]
  refine ⟨hjlt, ?_⟩
  rw [List.length_eraseIdx]
  simp only [if_pos hjlt]
  omega

/-! ### The grow loop -/

/-- Unfolding of the grow loop when the scan fails. -/
theorem growLoop_succ_error {env : Env} {fuel : Nat} {tree : jrNode} {st : SolverState}
    {e : String} (hfb : findBest env tree st.curJoinGroup 0 st initBest = .error e) :
    growLoop env (fuel + 1) tree st = .error e := by
  rw [growLoop, hfb]

/-- Unfolding of the grow loop when the scan commits no candidate: the
component is exhausted and the state is handed back untouched. -/
theorem growLoop_succ_none {env : Env} {fuel : Nat} {tree : jrNode} {st : SolverState}
    {b : Best} {st1 : SolverState}
    (hfb : findBest env tree st.curJoinGroup 0 st initBest = .ok (b, st1))
    (hbj : b.bestJoin = none) :
    growLoop env (fuel + 1) tree st = .ok (tree, st) := by
  have hst := findBest_state env tree _ _ _ _ _ _ hfb
  subst hst
  rw [growLoop, hfb]
  simp only [hbj]

/-- Unfolding of the grow loop when the scan commits a candidate: the winner
is removed from the group, the tree is replaced by the winning join at the
winning cost, and the pending residual list is replaced by the winner's. -/
theorem growLoop_succ_commit {env : Env} {fuel : Nat} {tree : jrNode} {st : SolverState}
    {b : Best} {st1 : SolverState} {bj : Plan}
    (hfb : findBest env tree st.curJoinGroup 0 st initBest = .ok (b, st1))
    (hbj : b.bestJoin = some bj) :
    growLoop env (fuel + 1) tree st =
      growLoop env fuel { p := bj, cumCost := b.bestCost }
        { st with curJoinGroup := st.curJoinGroup.eraseIdx b.bestIdx.toNat,
                  otherConds := b.finalRemainOthers } := by
  have hst := findBest_state env tree _ _ _ _ _ _ hfb
  subst hst
  rw [growLoop, hfb]
  simp only [hbj]

/-- The number of loop iterations is bounded by the group size plus one, so
any two sufficient fuel allotments give the same result: the grow loop
terminates. -/
theorem growLoop_fuel_irrel (env : Env) :
    ∀ (f1 f2 : Nat) (tree : jrNode) (st : SolverState),
      st.curJoinGroup.length < f1 → st.curJoinGroup.length < f2 →
      growLoop env f1 tree st = growLoop env f2 tree st := by
  intro f1
  induction f1 with
  | zero =>
      intro f2 tree st h1 _
      exact absurd h1 (Nat.not_lt_zero _)
  | succ a ih =>
      intro f2 tree st h1 h2
      cases f2 with
      | zero => exact absurd h2 (Nat.not_lt_zero _)
      | succ c =>
          cases hfb : findBest env tree st.curJoinGroup 0 st initBest with
          | error e => rw [growLoop_succ_error hfb, growLoop_succ_error hfb]
          | ok pair =>
              rcases pair with ⟨b, st1⟩
              cases hbj : b.bestJoin with
              | none => rw [growLoop_succ_none hfb hbj, growLoop_succ_none hfb hbj]
              | some bj =>
                  rw [growLoop_succ_commit hfb hbj, growLoop_succ_commit hfb hbj]
                  have hhit := (findBest_commit env tree hfb (by rw [hbj]; rfl)).1
                  have hlen := (ScanHit_idx_lt hhit).2
                  exact ih c _ _ (by simp only []; omega) (by simp only []; omega)

/-- A successful grow loop only ever removes nodes from the group (the final
group is a sublist of the initial one) and never touches the edge set. -/
theorem growLoop_ok_state (env : Env) :
    ∀ (fuel : Nat) (tree : jrNode) (st : SolverState) (t2 : jrNode) (st2 : SolverState),
      growLoop env fuel tree st = .ok (t2, st2) →
      st2.curJoinGroup.Sublist st.curJoinGroup ∧ st2.eqEdges = st.eqEdges := by
  intro fuel
  induction fuel with
  | zero =>
      intro tree st t2 st2 h
      simp only [growLoop, Except.ok.injEq, Prod.mk.injEq] at h
      rw [← h.2]
      exact ⟨List.Sublist.refl _, rfl⟩
  | succ a ih =>
      intro tree st t2 st2 h
      cases hfb : findBest env tree st.curJoinGroup 0 st initBest with
      | error e =>
          rw [growLoop_succ_error hfb] at h
          exact Except.noConfusion h
      | ok pair =>
          rcases pair with ⟨b, st1⟩
          cases hbj : b.bestJoin with
          | none =>
              rw [growLoop_succ_none hfb hbj] at h
              simp only [Except.ok.injEq, Prod.mk.injEq] at h
              rw [← h.2]
              exact ⟨List.Sublist.refl _, rfl⟩
          | some bj =>
              rw [growLoop_succ_commit hfb hbj] at h
              obtain ⟨hsub, hedges⟩ := ih _ _ t2 st2 h
              exact ⟨List.Sublist.trans hsub (List.eraseIdx_sublist _ _), hedges⟩

/-- A failing grow loop fails with the error of some stats derivation. -/
theorem growLoop_error_spec (env : Env) :
    ∀ (fuel : Nat) (tree : jrNode) (st : SolverState) (e : String),
      growLoop env fuel tree st = .error e →
      ∃ nj : Plan, env.deriveErr nj = some e := by
  intro fuel
  induction fuel with
  | zero =>
      intro tree st e h
      simp only [growLoop] at h
      exact Except.noConfusion h
  | succ a ih =>
      intro tree st e h
      cases hfb : findBest env tree st.curJoinGroup 0 st initBest with
      | error e2 =>
          rw [growLoop_succ_error hfb] at h
          obtain rfl := (Except.error.inj h)
          obtain ⟨j, n, nj, rem, _, _, hd⟩ :=
            findBest_error_spec env tree st.curJoinGroup 0 st initBest e2 hfb
          exact ⟨nj, hd⟩
      | ok pair =>
          rcases pair with ⟨b, st1⟩
          cases hbj : b.bestJoin with
          | none =>
              rw [growLoop_succ_none hfb hbj] at h
              exact Except.noConfusion h
          | some bj =>
              rw [growLoop_succ_commit hfb hbj] at h
              exact ih _ _ e h

/-! ### Component construction, the outer loop and solve -/

/-- Unfolding of constructConnectedJoinTree on a non-empty group: the head is
popped as the seed and the tail is grown with a sufficient fuel allotment. -/
theorem constructConnectedJoinTree_cons {env : Env} {st : SolverState}
    {seed : jrNode} {rest : List jrNode} (h : st.curJoinGroup = seed :: rest) :
    constructConnectedJoinTree env st =
      growLoop env (rest.length + 1) seed { st with curJoinGroup := rest } := by
  unfold constructConnectedJoinTree
  rw [h]

/-- A successful component construction on a non-empty group strictly shrinks
the group (at least the seed is consumed) and keeps the edge set. -/
theorem constructConnectedJoinTree_ok_state {env : Env} {st : SolverState}
    {seed : jrNode} {rest : List jrNode} {t2 : jrNode} {st2 : SolverState}
    (hg : st.curJoinGroup = seed :: rest)
    (h : constructConnectedJoinTree env st = .ok (t2, st2)) :
    st2.curJoinGroup.length < st.curJoinGroup.length ∧ st2.eqEdges = st.eqEdges := by
  rw [constructConnectedJoinTree_cons hg] at h
  obtain ⟨hsub, hedges⟩ := growLoop_ok_state env _ _ _ _ _ h
  constructor
  · have := hsub.length_le
    rw [hg]
    simp only [List.length_cons]
    exact Nat.lt_succ_of_le this
  · exact hedges

/-- Unfolding of the outer loop on an empty group. -/
theorem componentLoop_nil {env : Env} {fuel : Nat} {st : SolverState}
    {acc : List Plan} (h : st.curJoinGroup = []) :
    componentLoop env fuel st acc = .ok acc := by
  cases fuel with
  | zero => rfl
  | succ a => rw [componentLoop, h]

/-- Unfolding of the outer loop on a non-empty group when the component
construction fails. -/
theorem componentLoop_cons_error {env : Env} {fuel : Nat} {st : SolverState}
    {acc : List Plan} {seed : jrNode} {rest : List jrNode} {e : String}
    (hg : st.curJoinGroup = seed :: rest)
    (h : constructConnectedJoinTree env st = .error e) :
    componentLoop env (fuel + 1) st acc = .error e := by
  rw [componentLoop, hg, h]

/-- Unfolding of the outer loop on a non-empty group when the component
construction succeeds. -/
theorem componentLoop_cons_ok {env : Env} {fuel : Nat} {st : SolverState}
    {acc : List Plan} {seed : jrNode} {rest : List jrNode} {t2 : jrNode}
    {st2 : SolverState}
    (hg : st.curJoinGroup = seed :: rest)
    (h : constructConnectedJoinTree env st = .ok (t2, st2)) :
    componentLoop env (fuel + 1) st acc = componentLoop env fuel st2 (acc ++ [t2.p]) := by
  rw [componentLoop, hg, h]

/-- Any two sufficient fuel allotments give the same outer loop result: the
outer loop terminates because every iteration strictly shrinks the group. -/
theorem componentLoop_fuel_irrel (env : Env) :
    ∀ (f1 f2 : Nat) (st : SolverState) (acc : List Plan),
      st.curJoinGroup.length < f1 → st.curJoinGroup.length < f2 →
      componentLoop env f1 st acc = componentLoop env f2 st acc := by
  intro f1
  induction f1 with
  | zero =>
      intro f2 st acc h1 _
      exact absurd h1 (Nat.not_lt_zero _)
  | succ a ih =>
      intro f2 st acc h1 h2
      cases f2 with
      | zero => exact absurd h2 (Nat.not_lt_zero _)
      | succ c =>
          cases hg : st.curJoinGroup with
          | nil => rw [componentLoop_nil hg, componentLoop_nil hg]
          | cons seed rest =>
              cases hcc : constructConnectedJoinTree env st with
              | error e => rw [componentLoop_cons_error hg hcc, componentLoop_cons_error hg hcc]
              | ok pair =>
                  rcases pair with ⟨t2, st2⟩
                  rw [componentLoop_cons_ok hg hcc, componentLoop_cons_ok hg hcc]
                  have hlt := (constructConnectedJoinTree_ok_state hg hcc).1
                  exact ih c st2 (acc ++ [t2.p]) (by omega) (by omega)

/-- A failing outer loop fails with the error of some stats derivation. -/
theorem componentLoop_error_spec (env : Env) :
    ∀ (fuel : Nat) (st : SolverState) (acc : List Plan) (e : String),
      componentLoop env fuel st acc = .error e →
      ∃ nj : Plan, env.deriveErr nj = some e := by
  intro fuel
  induction fuel with
  | zero =>
      intro st acc e h
      simp only [componentLoop] at h
      exact Except.noConfusion h
  | succ a ih =>
      intro st acc e h
      cases hg : st.curJoinGroup with
      | nil =>
          rw [componentLoop_nil hg] at h
          exact Except.noConfusion h
      | cons seed rest =>
          cases hcc : constructConnectedJoinTree env st with
          | error e2 =>
              rw [componentLoop_cons_error hg hcc] at h
              obtain rfl := Except.error.inj h
              rw [constructConnectedJoinTree_cons hg] at hcc
              exact growLoop_error_spec env _ _ _ _ hcc
          | ok pair =>
              rcases pair with ⟨t2, st2⟩
              rw [componentLoop_cons_ok hg hcc] at h
              exact ih st2 (acc ++ [t2.p]) e h

/-- The seeding loop succeeds exactly on the members list mapped to its base
costs, and only when every member's stats derivation succeeds. -/
theorem seedJoinGroup_ok_spec (env : Env) :
    ∀ (plans : List Plan) (g : List jrNode), seedJoinGroup env plans = .ok g →
      g = plans.map (fun p => { p := p, cumCost := baseNodeCumCost env p }) ∧
        ∀ m ∈ plans, env.deriveErr m = none := by
  intro plans
  induction plans with
  | nil =>
      intro g h
      simp only [seedJoinGroup, Except.ok.injEq] at h
      subst h
      exact ⟨rfl, by simp⟩
  | cons p rest ih =>
      intro g h
      rw [seedJoinGroup] at h
      cases hd : env.deriveErr p with
      | some e =>
          rw [hd] at h
          exact Except.noConfusion h
      | none =>
          rw [hd] at h
          cases hrest : seedJoinGroup env rest with
          | error e =>
              rw [hrest] at h
              exact Except.noConfusion h
          | ok g2 =>
              rw [hrest] at h
              obtain rfl := Except.ok.inj h
              obtain ⟨hmap, hall⟩ := ih g2 hrest
              refine ⟨by rw [hmap]; rfl, ?_⟩
              intro m hm
              rcases List.mem_cons.mp hm with rfl | hm
              · exact hd
              · exact hall m hm

/-- The seeding loop fails exactly with the error of the first failing
member derivation. -/
theorem seedJoinGroup_error_spec (env : Env) :
    ∀ (plans : List Plan) (e : String), seedJoinGroup env plans = .error e →
      ∃ m ∈ plans, env.deriveErr m = some e := by
  intro plans
  induction plans with
  | nil =>
      intro e h
      simp only [seedJoinGroup] at h
      exact Except.noConfusion h
  | cons p rest ih =>
      intro e h
      rw [seedJoinGroup] at h
      cases hd : env.deriveErr p with
      | some e2 =>
          rw [hd] at h
          obtain rfl := Except.error.inj h
          exact ⟨p, List.mem_cons_self p rest, hd⟩
      | none =>
          rw [hd] at h
          cases hrest : seedJoinGroup env rest with
          | error e2 =>
              rw [hrest] at h
              obtain rfl := Except.error.inj h
              obtain ⟨m, hm, hd2⟩ := ih e2 hrest
              exact ⟨m, List.mem_cons_of_mem p hm, hd2⟩
          | ok g2 =>
              rw [hrest] at h
              exact Except.noConfusion h

/-- Unfolding of solve when the seeding loop fails. -/
theorem solve_seed_error {env : Env} {eqEdges : List EqEdge} {conds : List OtherCond}
    {plans : List Plan} {e : String} (h : seedJoinGroup env plans = .error e) :
    solve env eqEdges conds plans = (none, some e) := by
  unfold solve
  rw [h]

/-- The sorted group a successful solve hands to the outer loop. -/
def sortedGroup (env : Env) (plans : List Plan) : List jrNode :=
  (plans.map fun p => { p := p, cumCost := baseNodeCumCost env p }).insertionSort
    fun a b => a.cumCost ≤ b.cumCost

/-- Unfolding of solve when the seeding loop succeeds. -/
theorem solve_seed_ok {env : Env} {eqEdges : List EqEdge} {conds : List OtherCond}
    {plans : List Plan} {g : List jrNode} (h : seedJoinGroup env plans = .ok g) :
    solve env eqEdges conds plans =
      match componentLoop env ((sortedGroup env plans).length + 1)
          { curJoinGroup := sortedGroup env plans, eqEdges := eqEdges,
            otherConds := conds } [] with
      | .error e => (none, some e)
      | .ok cartesianGroup => (some (makeBushyJoin cartesianGroup), none) := by
  have hmap := (seedJoinGroup_ok_spec env plans g h).1
  unfold solve
  rw [h]
  subst hmap
  rfl

/-- C5: if any stats derivation fails — on an original member during seeding
or on a freshly built join candidate during a growing step — solve returns
that error verbatim together with a nil plan; no partial join tree is ever
returned alongside an error, and both failure sites produce the identical
(nil, error) result shape. -/
theorem solve_derivation_failure_is_fatal (env : Env) (eqEdges : List EqEdge)
    (conds : List OtherCond) (plans : List Plan) :
    (∀ e, (solve env eqEdges conds plans).2 = some e →
      (solve env eqEdges conds plans).1 = none ∧ ∃ q : Plan, env.deriveErr q = some e) ∧
    (∀ e, seedJoinGroup env plans = .error e →
      solve env eqEdges conds plans = (none, some e)) ∧
    (∀ g e, seedJoinGroup env plans = .ok g →
      componentLoop env ((sortedGroup env plans).length + 1)
          { curJoinGroup := sortedGroup env plans, eqEdges := eqEdges,
            otherConds := conds } [] = .error e →
      solve env eqEdges conds plans = (none, some e)) := by
  refine ⟨?_, ?_, ?_⟩
  · intro e h2
    cases hseed : seedJoinGroup env plans with
    | error e2 =>
        rw [solve_seed_error hseed] at h2 ⊢
        obtain rfl := Option.some.inj h2
        obtain ⟨m, _, hd⟩ := seedJoinGroup_error_spec env plans e2 hseed
        exact ⟨rfl, m, hd⟩
    | ok g =>
        rw [solve_seed_ok hseed] at h2 ⊢
        cases hcl : componentLoop env ((sortedGroup env plans).length + 1)
            { curJoinGroup := sortedGroup env plans, eqEdges := eqEdges,
              otherConds := conds } [] with
        | error e2 =>
            rw [hcl] at h2
            obtain rfl := Option.some.inj h2
            exact ⟨rfl, componentLoop_error_spec env _ _ _ e2 hcl⟩
        | ok cart =>
            rw [hcl] at h2
            exact Option.noConfusion h2
  · intro e h
    exact solve_seed_error h
  · intro g e hseed hcl
    rw [solve_seed_ok hseed, hcl]

/-- C6: a stats-derivation failure on a candidate evaluated in the middle of
a growing step (after any number of candidates have already been scanned)
aborts the grow loop, the component construction, the outer loop and solve
with exactly that error; the failure output (nil, err) carries neither a
partial tree nor any of the partially scanned working state, so the caller
observes nothing of the aborted run. -/
theorem midstep_failure_aborts_whole_solve (env : Env) (tree : jrNode)
    (st : SolverState) (fuel : Nat) (e : String)
    (hfb : findBest env tree st.curJoinGroup 0 st initBest = .error e) :
    growLoop env (fuel + 1) tree st = .error e ∧
    (∀ (stO : SolverState) (seed : jrNode) (rest : List jrNode) (acc : List Plan)
        (f : Nat), stO.curJoinGroup = seed :: rest →
      constructConnectedJoinTree env stO = .error e →
      componentLoop env (f + 1) stO acc = .error e) ∧
    (∀ (eqEdges : List EqEdge) (conds : List OtherCond) (plans : List Plan)
        (g : List jrNode), seedJoinGroup env plans = .ok g →
      componentLoop env ((sortedGroup env plans).length + 1)
          { curJoinGroup := sortedGroup env plans, eqEdges := eqEdges,
            otherConds := conds } [] = .error e →
      solve env eqEdges conds plans = (none, some e)) := by
  refine ⟨growLoop_succ_error hfb, ?_, ?_⟩
  · intro stO seed rest acc f hg hcc
    exact componentLoop_cons_error hg hcc
  · intro eqEdges conds plans g hseed hcl
    rw [solve_seed_ok hseed, hcl]

/-- C7: a committed merge removes exactly one node from the remaining group
(the group strictly shrinks by one), a successful component construction on a
non-empty group strictly shrinks the group, and consequently both the grow
loop and the outer component loop are insensitive to any sufficient fuel
allotment: they terminate on every finite group. -/
theorem merge_shrinks_group_and_loops_terminate (env : Env) (tree : jrNode)
    (st : SolverState) (b : Best) (st1 : SolverState) (bj : Plan)
    (hfb : findBest env tree st.curJoinGroup 0 st initBest = .ok (b, st1))
    (hbj : b.bestJoin = some bj) :
    (st.curJoinGroup.eraseIdx b.bestIdx.toNat).length + 1 = st.curJoinGroup.length ∧
    (∀ (stO : SolverState) (seed : jrNode) (rest : List jrNode) (t2 : jrNode)
        (st2 : SolverState), stO.curJoinGroup = seed :: rest →
      constructConnectedJoinTree env stO = .ok (t2, st2) →
      st2.curJoinGroup.length < stO.curJoinGroup.length) ∧
    (∀ (f1 f2 : Nat) (tree2 : jrNode) (st2 : SolverState),
      st2.curJoinGroup.length < f1 → st2.curJoinGroup.length < f2 →
      growLoop env f1 tree2 st2 = growLoop env f2 tree2 st2) ∧
    (∀ (f1 f2 : Nat) (st2 : SolverState) (acc : List Plan),
      st2.curJoinGroup.length < f1 → st2.curJoinGroup.length < f2 →
      componentLoop env f1 st2 acc = componentLoop env f2 st2 acc) := by
  refine ⟨?_, ?_, growLoop_fuel_irrel env, componentLoop_fuel_irrel env⟩
  · have hhit := (findBest_commit env tree hfb (by rw [hbj]; rfl)).1
    exact (ScanHit_idx_lt hhit).2
  · intro stO seed rest t2 st2 hg hcc
    exact (constructConnectedJoinTree_ok_state hg hcc).1

/-- C10: candidate selection starts from a best cost of math.MaxFloat64 and
uses a strict comparison, so a committed candidate always costs strictly less
than the sentinel — a connectable candidate whose cumulative cost is at least
math.MaxFloat64 is never selected; and when every connectable candidate of a
step costs at least the sentinel, the scan commits nothing and the grow loop
ends the component with the tree and the remaining group untouched, leaving
those still-connectable nodes to later components. -/
theorem sentinel_cost_candidates_never_selected (env : Env) (tree : jrNode)
    (st : SolverState) (b : Best) (st1 : SolverState) (fuel : Nat)
    (hfb : findBest env tree st.curJoinGroup 0 st initBest = .ok (b, st1)) :
    (∀ bj, b.bestJoin = some bj →
      b.bestCost < maxFloat64 ∧
      ∃ (j : Nat) (node : jrNode), st.curJoinGroup[j]? = some node ∧
        candidateCost env st tree node = some b.bestCost) ∧
    ((∀ (j : Nat) (node : jrNode) (c : ℤ), st.curJoinGroup[j]? = some node →
        candidateCost env st tree node = some c → maxFloat64 ≤ c) →
      b = initBest ∧ growLoop env (fuel + 1) tree st = .ok (tree, st)) := by
  constructor
  · intro bj hbj
    obtain ⟨hhit, hlt⟩ := findBest_commit env tree hfb (by rw [hbj]; rfl)
    obtain ⟨j, node, nj, rem, hj, hcheck, _, _, _, _, hcost⟩ := hhit
    exact ⟨hlt, j, node, hj, by rw [hcost]; exact candidateCost_some hcheck⟩
  · intro hbig
    have hb := findBest_no_commit env tree st.curJoinGroup 0 st initBest b st1 hfb
      (le_of_eq rfl) hbig
    subst hb
    exact ⟨rfl, growLoop_succ_none hfb rfl⟩

/-- C1: in every growing step, the committed merge is a connectable candidate
of the remaining group whose cumulative cost is a lower bound on the
cumulative cost of every connectable candidate evaluated in that step, and on
an exact cost tie the candidate seen first in the scan wins; the grow loop
then commits exactly that join at exactly that cost. -/
theorem greedy_step_commits_cheapest_candidate (env : Env) (tree : jrNode)
    (st : SolverState) (b : Best) (st1 : SolverState) (bj : Plan)
    (hfb : findBest env tree st.curJoinGroup 0 st initBest = .ok (b, st1))
    (hbj : b.bestJoin = some bj) :
    (∃ (j : Nat) (node : jrNode), b.bestIdx = Int.ofNat j ∧
      st.curJoinGroup[j]? = some node ∧
      candidateCost env st tree node = some b.bestCost) ∧
    (∀ (j : Nat) (node : jrNode) (c : ℤ), st.curJoinGroup[j]? = some node →
      candidateCost env st tree node = some c → b.bestCost ≤ c) ∧
    (∀ (j : Nat) (node : jrNode) (c : ℤ), st.curJoinGroup[j]? = some node →
      candidateCost env st tree node = some c → c = b.bestCost →
      b.bestIdx ≤ (j : Int)) ∧
    (∀ fuel, growLoop env (fuel + 1) tree st =
      growLoop env fuel { p := bj, cumCost := b.bestCost }
        { st with curJoinGroup := st.curJoinGroup.eraseIdx b.bestIdx.toNat,
                  otherConds := b.finalRemainOthers }) := by
  obtain ⟨hhit, _⟩ := findBest_commit env tree hfb (by rw [hbj]; rfl)
  have hspec := findBest_ok_spec env tree st.curJoinGroup 0 st initBest b st1 hfb (by
    show (-1 : Int) ≤ (0 : Int)
    omega)
  refine ⟨?_, ?_, ?_, ?_⟩
  · obtain ⟨j, node, nj, rem, hj, hcheck, _, _, _, hidx, hcost⟩ := hhit
    refine ⟨j, node, by simpa using hidx, hj, by rw [hcost]; exact candidateCost_some hcheck⟩
  · intro j node c hj hcost
    exact hspec.2.2.1 j node c hj hcost
  · intro j node c hj hcost hceq
    have := hspec.2.2.2 j node c hj hcost hceq
    simpa using this
  · intro fuel
    exact growLoop_succ_commit hfb hbj

/-- C2: checkConnectionAndMakeJoin returns a join candidate exactly when at
least one equality edge matches in one of the two orientations (left schema
holds lCol and right schema holds rCol, or the other way round); with zero
matches it returns no candidate and an empty pending list; and every edge
attached to the candidate is oriented to the actual left/right assignment —
it is an original edge used as-is, or an original edge with its two columns
swapped. -/
theorem connection_iff_matching_edge (st : SolverState) (l r : Plan) :
    ((checkConnectionAndMakeJoin st l r).1.1.isSome ↔
      ∃ d ∈ st.eqEdges, (d.lCol ∈ l.schema ∧ d.rCol ∈ r.schema) ∨
        (d.lCol ∈ r.schema ∧ d.rCol ∈ l.schema)) ∧
    ((¬ ∃ d ∈ st.eqEdges, (d.lCol ∈ l.schema ∧ d.rCol ∈ r.schema) ∨
        (d.lCol ∈ r.schema ∧ d.rCol ∈ l.schema)) →
      (checkConnectionAndMakeJoin st l r).1 = (none, [])) ∧
    (∀ nj rem, (checkConnectionAndMakeJoin st l r).1 = (some nj, rem) →
      ∃ es ocs, nj = Plan.join l r es ocs ∧ es ≠ [] ∧
        ∀ d ∈ es, d.lCol ∈ l.schema ∧ d.rCol ∈ r.schema ∧
          (d ∈ st.eqEdges ∨ { lCol := d.rCol, rCol := d.lCol } ∈ st.eqEdges)) := by
  have hnil := @collectUsedEdges_ne_nil l.schema r.schema st.eqEdges
  refine ⟨?_, ?_, ?_⟩
  · constructor
    · intro hsome
      cases hc : collectUsedEdges l.schema r.schema st.eqEdges with
      | nil =>
          rw [checkConnectionAndMakeJoin_of_nil st l r hc] at hsome
          simp at hsome
      | cons d ds =>
          exact hnil.mp (by rw [hc]; exact List.cons_ne_nil d ds)
    · intro hex
      cases hc : collectUsedEdges l.schema r.schema st.eqEdges with
      | nil => exact absurd hex (by rw [← hnil, hc]; simp)
      | cons d ds =>
          rw [checkConnectionAndMakeJoin_of_cons st l r d ds hc]
          rfl
  · intro hnex
    cases hc : collectUsedEdges l.schema r.schema st.eqEdges with
    | nil => exact checkConnectionAndMakeJoin_of_nil st l r hc
    | cons d ds =>
        exact absurd (hnil.mp (by rw [hc]; exact List.cons_ne_nil d ds)) hnex
  · intro nj rem h
    cases hc : collectUsedEdges l.schema r.schema st.eqEdges with
    | nil =>
        rw [checkConnectionAndMakeJoin_of_nil st l r hc] at h
        exact absurd (congrArg Prod.fst h) (by simp)
    | cons d ds =>
        rw [checkConnectionAndMakeJoin_of_cons st l r d ds hc] at h
        simp only [Prod.mk.injEq, Option.some.injEq] at h
        obtain ⟨h1, h2⟩ := h
        subst h1
        subst h2
        refine ⟨d :: ds, _, rfl, List.cons_ne_nil d ds, ?_⟩
        intro d2 hd2
        rw [← hc] at hd2
        obtain ⟨d3, hd3, hcase⟩ := mem_collectUsedEdges.mp hd2
        rcases hcase with ⟨ha, hb2, rfl⟩ | ⟨_, ha, hb2, rfl⟩
        · exact ⟨ha, hb2, Or.inl hd3⟩
        · exact ⟨hb2, ha, Or.inr hd3⟩

/-- C3: when at least one edge matches, one call partitions the current
residual-predicate list against the merged schema: a predicate is attached to
the candidate join exactly when every column it references is contained in
the merged schema, every other predicate is returned pending, and together
the attached and pending lists are a permutation of the input list — nothing
is dropped and nothing is duplicated. -/
theorem residuals_partitioned_by_merged_schema (st : SolverState) (l r : Plan)
    (nj : Plan) (rem : List OtherCond)
    (h : (checkConnectionAndMakeJoin st l r).1 = (some nj, rem)) :
    ∃ es ocs, nj = Plan.join l r es ocs ∧
      ocs = st.otherConds.filter
        (fun c => exprFromSchema c (mergeSchema l.schema r.schema)) ∧
      rem = st.otherConds.filter
        (fun c => !exprFromSchema c (mergeSchema l.schema r.schema)) ∧
      (∀ c, c ∈ ocs ↔ c ∈ st.otherConds ∧
        exprFromSchema c (mergeSchema l.schema r.schema) = true) ∧
      (∀ c, c ∈ rem ↔ c ∈ st.otherConds ∧
        ¬ exprFromSchema c (mergeSchema l.schema r.schema) = true) ∧
      (ocs ++ rem).Perm st.otherConds := by
  cases hc : collectUsedEdges l.schema r.schema st.eqEdges with
  | nil =>
      rw [checkConnectionAndMakeJoin_of_nil st l r hc] at h
      exact absurd (congrArg Prod.fst h) (by simp)
  | cons d ds =>
      rw [checkConnectionAndMakeJoin_of_cons st l r d ds hc] at h
      simp only [Prod.mk.injEq, Option.some.injEq] at h
      obtain ⟨h1, h2⟩ := h
      subst h1
      subst h2
      refine ⟨d :: ds, _, rfl, rfl, rfl, ?_, ?_, ?_⟩
      · intro c
        simp [List.mem_filter]
      · intro c
        simp [List.mem_filter]
      · exact List.filter_append_perm _ _

/-- C9: checkConnectionAndMakeJoin is pure with respect to the join-group
working state: it hands back the solver state (remaining group, edge set,
pending residual list) exactly as given, the grow-step scan built on it does
the same, and a scan that commits nothing leaves even the grow loop's state
untouched — the pending list changes only when a winning candidate is
committed. -/
theorem checkConnection_is_pure (env : Env) (tree : jrNode) (st : SolverState)
    (l r : Plan) (g : List jrNode) (i : Nat) (acc b : Best) (st1 : SolverState)
    (fuel : Nat) :
    (checkConnectionAndMakeJoin st l r).2 = st ∧
    (findBest env tree g i st acc = .ok (b, st1) → st1 = st) ∧
    (findBest env tree st.curJoinGroup 0 st initBest = .ok (b, st1) →
      b.bestJoin = none → growLoop env (fuel + 1) tree st = .ok (tree, st)) := by
  refine ⟨checkConnectionAndMakeJoin_state st l r, ?_, ?_⟩
  · intro h
    exact findBest_state env tree g i st acc b st1 h
  · intro h hbj
    exact growLoop_succ_none h hbj

/-! ### Concrete members, environments and states exercising the theorems -/

/-- Concrete member with column 10. -/
def pA : Plan := .leaf 1 [10]
/-- Concrete member with column 20. -/
def pB : Plan := .leaf 2 [20]
/-- Concrete member with column 30. -/
def pC : Plan := .leaf 3 [30]
/-- Concrete member with column 40. -/
def pD : Plan := .leaf 4 [40]

/-- An environment where every derivation succeeds and every row count is 1. -/
def envOk : Env := { rowCount := fun _ => 1, deriveErr := fun _ => none }

/-- A state with two nodes both connectable to pA at equal cost. -/
def st1 : SolverState :=
  { curJoinGroup := [{ p := pB, cumCost := 1 }, { p := pC, cumCost := 1 }],
    eqEdges := [{ lCol := 10, rCol := 20 }, { lCol := 10, rCol := 30 }],
    otherConds := [] }

/-- The join of pA and pB along their edge. -/
def njAB : Plan := .join pA pB [{ lCol := 10, rCol := 20 }] []

/-- The scan result on st1: the tie at cost 3 is resolved to index 0. -/
def b1 : Best :=
  { bestCost := 3, bestIdx := 0, bestJoin := some njAB, finalRemainOthers := [] }

theorem greedy_step_commits_cheapest_candidate_witness :
    findBest envOk { p := pA, cumCost := 1 } st1.curJoinGroup 0 st1 initBest =
        .ok (b1, st1) ∧
      b1.bestCost ≤ 3 ∧ b1.bestIdx ≤ (1 : Int) :=
  have h := greedy_step_commits_cheapest_candidate envOk { p := pA, cumCost := 1 }
    st1 b1 st1 njAB (by rfl) (by decide)
  ⟨by rfl,
    h.2.1 1 { p := pC, cumCost := 1 } 3 (by decide) (by decide),
    h.2.2.1 1 { p := pC, cumCost := 1 } 3 (by decide) (by decide) (by decide)⟩

theorem connection_iff_matching_edge_witness :
    (checkConnectionAndMakeJoin st1 pA pB).1 = (some njAB, []) ∧
      ∃ es ocs, njAB = Plan.join pA pB es ocs ∧ es ≠ [] ∧
        ∀ d ∈ es, d.lCol ∈ pA.schema ∧ d.rCol ∈ pB.schema ∧
          (d ∈ st1.eqEdges ∨ { lCol := d.rCol, rCol := d.lCol } ∈ st1.eqEdges) :=
  ⟨by decide, (connection_iff_matching_edge st1 pA pB).2.2 njAB [] (by decide)⟩

/-- A state carrying one coverable and one uncoverable residual predicate. -/
def st3 : SolverState :=
  { curJoinGroup := [],
    eqEdges := [{ lCol := 10, rCol := 20 }],
    otherConds := [{ id := 0, cols := [10, 20] }, { id := 1, cols := [30] }] }

/-- The candidate join st3 produces for (pA, pB). -/
def njAB3 : Plan :=
  .join pA pB [{ lCol := 10, rCol := 20 }] [{ id := 0, cols := [10, 20] }]

/-- The pending list st3 produces for (pA, pB). -/
def rem3 : List OtherCond := [{ id := 1, cols := [30] }]

theorem residuals_partitioned_by_merged_schema_witness :
    (checkConnectionAndMakeJoin st3 pA pB).1 = (some njAB3, [{ id := 1, cols := [30] }]) ∧
      ∃ es ocs, njAB3 = Plan.join pA pB es ocs ∧
        ocs = st3.otherConds.filter
          (fun c => exprFromSchema c (mergeSchema pA.schema pB.schema)) ∧
        rem3 = st3.otherConds.filter
          (fun c => !exprFromSchema c (mergeSchema pA.schema pB.schema)) ∧
        (∀ c, c ∈ ocs ↔ c ∈ st3.otherConds ∧
          exprFromSchema c (mergeSchema pA.schema pB.schema) = true) ∧
        (∀ c, c ∈ rem3 ↔ c ∈ st3.otherConds ∧
          ¬ exprFromSchema c (mergeSchema pA.schema pB.schema) = true) ∧
        (ocs ++ rem3).Perm st3.otherConds :=
  ⟨by decide,
    residuals_partitioned_by_merged_schema st3 pA pB njAB3 rem3 (by decide)⟩

/-- An environment whose derivation fails exactly on the member pC. -/
def envSeedErr : Env :=
  { rowCount := fun _ => 1,
    deriveErr := fun p => if p = pC then some "boom" else none }

theorem solve_derivation_failure_is_fatal_witness :
    seedJoinGroup envSeedErr [pA, pC] = .error "boom" ∧
      solve envSeedErr [] [] [pA, pC] = (none, some "boom") :=
  ⟨by rfl,
    (solve_derivation_failure_is_fatal envSeedErr [] [] [pA, pC]).2.1 "boom" (by rfl)⟩

/-- Edges connecting pA to each of pB, pC, pD. -/
def edges6 : List EqEdge :=
  [{ lCol := 10, rCol := 20 }, { lCol := 10, rCol := 30 }, { lCol := 10, rCol := 40 }]

/-- The grow-step state whose scan over [pB, pC, pD] fails on its third
candidate. -/
def st6 : SolverState :=
  { curJoinGroup := [{ p := pB, cumCost := 1 }, { p := pC, cumCost := 1 },
      { p := pD, cumCost := 1 }],
    eqEdges := edges6,
    otherConds := [] }

/-- An environment whose derivation fails exactly on the third candidate join
evaluated in the grow step on st6 (the join of pA and pD). -/
def env6 : Env :=
  { rowCount := fun _ => 1,
    deriveErr := fun p =>
      if p = Plan.join pA pD [{ lCol := 10, rCol := 40 }] [] then some "mid" else none }

theorem midstep_failure_aborts_whole_solve_witness :
    findBest env6 { p := pA, cumCost := 1 } st6.curJoinGroup 0 st6 initBest =
        .error "mid" ∧
      growLoop env6 1 { p := pA, cumCost := 1 } st6 = .error "mid" :=
  ⟨by rfl,
    (midstep_failure_aborts_whole_solve env6 { p := pA, cumCost := 1 } st6 0 "mid"
      (by rfl)).1⟩

theorem merge_shrinks_group_and_loops_terminate_witness :
    (st1.curJoinGroup.eraseIdx b1.bestIdx.toNat).length + 1 = st1.curJoinGroup.length :=
  (merge_shrinks_group_and_loops_terminate envOk { p := pA, cumCost := 1 }
    st1 b1 st1 njAB (by rfl) (by decide)).1

theorem checkConnection_is_pure_witness :
    (checkConnectionAndMakeJoin st1 pA pB).2 = st1 ∧ st1 = st1 :=
  have h := checkConnection_is_pure envOk { p := pA, cumCost := 1 } st1 pA pB
    st1.curJoinGroup 0 initBest b1 st1 0
  ⟨h.1, h.2.1 (by rfl)⟩

/-- An environment estimating every plan at exactly math.MaxFloat64 rows. -/
def envMax : Env := { rowCount := fun _ => maxFloat64, deriveErr := fun _ => none }

/-- A one-candidate state whose only connectable candidate costs three times
the sentinel. -/
def stM : SolverState :=
  { curJoinGroup := [{ p := pB, cumCost := maxFloat64 }],
    eqEdges := [{ lCol := 10, rCol := 20 }],
    otherConds := [] }

theorem sentinel_cost_candidates_never_selected_witness :
    findBest envMax { p := pA, cumCost := maxFloat64 } stM.curJoinGroup 0 stM initBest =
        .ok (initBest, stM) ∧
      growLoop envMax 1 { p := pA, cumCost := maxFloat64 } stM =
        .ok ({ p := pA, cumCost := maxFloat64 }, stM) :=
  have h := sentinel_cost_candidates_never_selected envMax
    { p := pA, cumCost := maxFloat64 } stM initBest stM 0 (by rfl)
  ⟨by rfl, (h.2 (by
    intro j node c hj hcost
    cases j with
    | zero =>
        simp only [stM, List.getElem?_cons_zero, Option.some.injEq] at hj
        subst hj
        rw [show candidateCost envMax stM { p := pA, cumCost := maxFloat64 }
            { p := pB, cumCost := maxFloat64 } =
            some (maxFloat64 + maxFloat64 + maxFloat64) from by decide] at hcost
        obtain rfl := Option.some.inj hcost
        decide
    | succ j =>
        simp only [stM, List.getElem?_cons_succ, List.getElem?_nil] at hj
        exact Option.noConfusion hj)).2⟩

/-! ### Predicate bookkeeping over finished trees -/

/-- The multiset (as a list) of residual predicates attached across all join
nodes of a tree. -/
def attachedConds : Plan → List OtherCond
  | .leaf _ _ => []
  | .join l r _ os => os ++ (attachedConds l ++ attachedConds r)

/-- The multiset (as a list) of equality conditions attached across all join
nodes of a tree. -/
def attachedEdges : Plan → List EqEdge
  | .leaf _ _ => []
  | .join l r es _ => es ++ (attachedEdges l ++ attachedEdges r)

/-- An edge as an unordered column pair, to identify an edge with its swapped
form built by checkConnectionAndMakeJoin. -/
def normPair (e : EqEdge) : Col × Col :=
  if e.lCol ≤ e.rCol then (e.lCol, e.rCol) else (e.rCol, e.lCol)

/-- Number of predicate-free (cartesian) join nodes in a tree. -/
def countCrossJoins : Plan → Nat
  | .leaf _ _ => 0
  | .join l r es os =>
      (if es = [] ∧ os = [] then 1 else 0) + (countCrossJoins l + countCrossJoins r)

/-- Soundness of predicate attachment: at every join node of the tree, the
merged schema of the node contains both columns of every attached equality
condition and every column referenced by every attached residual predicate. -/
def soundJoinsB : Plan → Bool
  | .leaf _ _ => true
  | .join l r es os =>
      (es.all fun e => (mergeSchema l.schema r.schema).contains e.lCol &&
        (mergeSchema l.schema r.schema).contains e.rCol) &&
      ((os.all fun o => exprFromSchema o (mergeSchema l.schema r.schema)) &&
        (soundJoinsB l && soundJoinsB r))

/-- Does the edge have both endpoint columns inside the accumulated schemas
of the given member set? -/
def edgeInside (absorbed : List Plan) (e : EqEdge) : Bool :=
  (absorbed.any fun a => a.schema.contains e.lCol) &&
    (absorbed.any fun a => a.schema.contains e.rCol)

/-- The number of distinct equality-edge connected components (blocks) a
member list spans, given the block labeling. -/
def numBlocks (blockOf : Plan → Nat) (ms : List Plan) : Nat :=
  ((ms.map blockOf).dedup).length

/-- The sum of the members' base cumulative costs. -/
def sumBase (env : Env) (ms : List Plan) : ℤ :=
  (ms.map (baseNodeCumCost env)).sum

/-- The benign-run setting of the spec scenarios, as one bundle of
hypotheses: the join group members are opaque leaves with pairwise disjoint
schemas, no two equal; every equality edge links two distinct members of the
same block; inside one block every pair of distinct members is linked by some
edge (the blocks are cliques); every stats derivation succeeds; and every row
count is a nonnegative estimate small enough that no cumulative cost can
reach the math.MaxFloat64 sentinel. -/
structure CliqueBlocks (env : Env) (eqEdges : List EqEdge) (members : List Plan)
    (blockOf : Plan → Nat) (M : ℤ) : Prop where
  leaves : ∀ m ∈ members, ∃ i s, m = Plan.leaf i s
  nodup : members.Nodup
  disjoint : members.Pairwise fun a b => ∀ c, c ∈ a.schema → c ∉ b.schema
  edges_within : ∀ e ∈ eqEdges, ∃ a ∈ members, ∃ b ∈ members, a ≠ b ∧
      blockOf a = blockOf b ∧ e.lCol ∈ a.schema ∧ e.rCol ∈ b.schema
  block_clique : ∀ a ∈ members, ∀ b ∈ members, a ≠ b → blockOf a = blockOf b →
      ∃ e ∈ eqEdges, (e.lCol ∈ a.schema ∧ e.rCol ∈ b.schema) ∨
        (e.lCol ∈ b.schema ∧ e.rCol ∈ a.schema)
  derive_ok : ∀ p, env.deriveErr p = none
  row_nonneg : ∀ p, 0 ≤ env.rowCount p
  row_le : ∀ p, env.rowCount p ≤ M
  bound : 2 * sumBase env members + ((members.length : ℤ) + 1) * M < maxFloat64

/-- Two plans are adjacent when some equality edge links their schemas, in
either orientation. -/
def adjacentB (eqEdges : List EqEdge) (a b : Plan) : Prop :=
  ∃ e ∈ eqEdges, (e.lCol ∈ a.schema ∧ e.rCol ∈ b.schema) ∨
    (e.lCol ∈ b.schema ∧ e.rCol ∈ a.schema)

/-- Adjacency restricted to group members. -/
def memAdj (eqEdges : List EqEdge) (members : List Plan) (a b : Plan) : Prop :=
  a ∈ members ∧ b ∈ members ∧ adjacentB eqEdges a b

/-- The general benign-run setting: like the clique bundle, but a block only
needs to be edge-connected — any two members of one block are joined by a
chain of equality edges through members, not necessarily by a direct edge. -/
structure ConnBlocks (env : Env) (eqEdges : List EqEdge) (members : List Plan)
    (blockOf : Plan → Nat) (M : ℤ) : Prop where
  leaves : ∀ m ∈ members, ∃ i s, m = Plan.leaf i s
  nodup : members.Nodup
  disjoint : members.Pairwise fun a b => ∀ c, c ∈ a.schema → c ∉ b.schema
  edges_within : ∀ e ∈ eqEdges, ∃ a ∈ members, ∃ b ∈ members, a ≠ b ∧
      blockOf a = blockOf b ∧ e.lCol ∈ a.schema ∧ e.rCol ∈ b.schema
  block_conn : ∀ a ∈ members, ∀ b ∈ members, blockOf a = blockOf b →
      Relation.ReflTransGen (memAdj eqEdges members) a b
  derive_ok : ∀ p, env.deriveErr p = none
  row_nonneg : ∀ p, 0 ≤ env.rowCount p
  row_le : ∀ p, env.rowCount p ≤ M
  bound : 2 * sumBase env members + ((members.length : ℤ) + 1) * M < maxFloat64

/-- A clique block bundle is a connected block bundle: a direct edge is a
one-step chain. -/
theorem cliqueBlocks_conn {env : Env} {eqEdges : List EqEdge}
    {members : List Plan} {blockOf : Plan → Nat} {M : ℤ}
    (H : CliqueBlocks env eqEdges members blockOf M) :
    ConnBlocks env eqEdges members blockOf M := by
  refine ⟨H.leaves, H.nodup, H.disjoint, H.edges_within, ?_, H.derive_ok,
    H.row_nonneg, H.row_le, H.bound⟩
  intro a ha b hb hblk
  by_cases hab : a = b
  · subst hab
    exact Relation.ReflTransGen.refl
  · obtain ⟨e, he, hor⟩ := H.block_clique a ha b hb hab hblk
    exact Relation.ReflTransGen.single ⟨ha, hb, e, he, hor⟩

/-! ### Helper lemmas for the clique analysis -/

/-- A list is a permutation of any of its elements consed onto the list with
that position erased. -/
theorem perm_cons_eraseIdx {α : Type} :
    ∀ (l : List α) (j : Nat) (a : α), l[j]? = some a → l.Perm (a :: l.eraseIdx j) := by
  intro l
  induction l with
  | nil =>
      intro j a h
      simp at h
  | cons b bs ih =>
      intro j a h
      cases j with
      | zero =>
          simp only [List.getElem?_cons_zero, Option.some.injEq] at h
          subst h
          exact List.Perm.refl _
      | succ j =>
          simp only [List.getElem?_cons_succ] at h
          have hperm := ih j a h
          exact (hperm.cons b).trans (List.Perm.swap a b _)

/-- Splitting a filter by a stronger predicate: the part matching p together
with the part matching q but not p is a permutation of the part matching q,
when p implies q on the list. -/
theorem filter_sub_perm {α : Type} {p q : α → Bool} :
    ∀ (l : List α), (∀ a ∈ l, p a = true → q a = true) →
      (l.filter p ++ l.filter fun a => q a && !p a).Perm (l.filter q) := by
  intro l
  induction l with
  | nil => intro _; simp
  | cons a l ih =>
      intro hpq
      have hrest := ih fun x hx => hpq x (List.mem_cons_of_mem a hx)
      cases hp : p a with
      | true =>
          have hq := hpq a (List.mem_cons_self a l) hp
          have e1 : List.filter p (a :: l) = a :: List.filter p l := by
            simp [List.filter_cons, hp]
          have e2 : List.filter (fun x => q x && !p x) (a :: l) =
              List.filter (fun x => q x && !p x) l := by
            simp [List.filter_cons, hp]
          have e3 : List.filter q (a :: l) = a :: List.filter q l := by
            simp [List.filter_cons, hq]
          rw [e1, e2, e3]
          exact hrest.cons a
      | false =>
          cases hq : q a with
          | true =>
              have e1 : List.filter p (a :: l) = List.filter p l := by
                simp [List.filter_cons, hp]
              have e2 : List.filter (fun x => q x && !p x) (a :: l) =
                  a :: List.filter (fun x => q x && !p x) l := by
                simp [List.filter_cons, hp, hq]
              have e3 : List.filter q (a :: l) = a :: List.filter q l := by
                simp [List.filter_cons, hq]
              rw [e1, e2, e3]
              exact List.perm_middle.trans (hrest.cons a)
          | false =>
              have e1 : List.filter p (a :: l) = List.filter p l := by
                simp [List.filter_cons, hp]
              have e2 : List.filter (fun x => q x && !p x) (a :: l) =
                  List.filter (fun x => q x && !p x) l := by
                simp [List.filter_cons, hq]
              have e3 : List.filter q (a :: l) = List.filter q l := by
                simp [List.filter_cons, hq]
              rw [e1, e2, e3]
              exact hrest

/-- Swapping the two columns of an edge does not change its unordered pair. -/
theorem normPair_swap (e : EqEdge) :
    normPair { lCol := e.rCol, rCol := e.lCol } = normPair e := by
  show (if e.rCol ≤ e.lCol then ((e.rCol : Col), e.lCol) else (e.lCol, e.rCol)) =
    if e.lCol ≤ e.rCol then (e.lCol, e.rCol) else (e.rCol, e.lCol)
  rcases le_or_lt e.lCol e.rCol with h | h
  · rw [if_pos h]
    rcases le_or_lt e.rCol e.lCol with h2 | h2
    · have h3 : e.lCol = e.rCol := Nat.le_antisymm h h2
      rw [if_pos h2, h3]
    · rw [if_neg (Nat.not_le.mpr h2)]
  · rw [if_neg (Nat.not_le.mpr h), if_pos (Nat.le_of_lt h)]

/-- Up to the unordered-pair view, the collected edge list is exactly the
filter of the edge set by "matches in one of the two orientations". -/
theorem collectUsedEdges_map_norm (ls rs : List Col) :
    ∀ edges : List EqEdge,
      (collectUsedEdges ls rs edges).map normPair =
        (edges.filter fun d =>
          decide ((d.lCol ∈ ls ∧ d.rCol ∈ rs) ∨ (d.lCol ∈ rs ∧ d.rCol ∈ ls))).map
          normPair := by
  intro edges
  induction edges with
  | nil => rfl
  | cons d rest ih =>
      by_cases h1 : d.lCol ∈ ls ∧ d.rCol ∈ rs
      · simp only [collectUsedEdges, if_pos h1, List.filter_cons,
          decide_eq_true_eq]
        rw [if_pos (Or.inl h1)]
        simp only [List.map_cons, ih]
      · by_cases h2 : d.lCol ∈ rs ∧ d.rCol ∈ ls
        · simp only [collectUsedEdges, if_neg h1, if_pos h2, List.filter_cons,
            decide_eq_true_eq]
          rw [if_pos (Or.inr h2)]
          simp only [List.map_cons, ih, normPair_swap]
        · simp only [collectUsedEdges, if_neg h1, if_neg h2, List.filter_cons,
            decide_eq_true_eq]
          rw [if_neg (by tauto)]
          exact ih

/-- With pairwise disjoint schemas, a column determines the member holding
it. -/
theorem col_unique {members : List Plan}
    (hd : members.Pairwise fun a b => ∀ c, c ∈ a.schema → c ∉ b.schema)
    {a b : Plan} (ha : a ∈ members) (hb : b ∈ members) {c : Col}
    (hca : c ∈ a.schema) (hcb : c ∈ b.schema) : a = b := by
  by_contra hne
  have hsymm : Symmetric fun a b : Plan => ∀ c, c ∈ a.schema → c ∉ b.schema := by
    intro x y hxy c hcy hcx
    exact hxy c hcx hcy
  have hrel := List.Pairwise.forall hsymm hd ha hb hne
  exact hrel c hca hcb

/-- A scan over a list with no connectable candidate returns its accumulator
and state untouched. -/
theorem findBest_all_none (env : Env) (tree : jrNode) :
    ∀ (g : List jrNode) (i : Nat) (st : SolverState) (acc : Best),
      (∀ node ∈ g, (checkConnectionAndMakeJoin st tree.p node.p).1.1 = none) →
      findBest env tree g i st acc = .ok (acc, st) := by
  intro g
  induction g with
  | nil =>
      intro i st acc _
      rfl
  | cons node rest ih =>
      intro i st acc hnone
      rw [findBest_cons]
      rcases hp : (checkConnectionAndMakeJoin st tree.p node.p).1 with ⟨onj, r⟩
      have := hnone node (List.mem_cons_self node rest)
      rw [hp] at this
      subst this
      simp only [hp]
      exact ih (i + 1) st acc fun n hn => hnone n (List.mem_cons_of_mem node hn)

/-- Removing every occurrence of a present value drops the number of distinct
values by exactly one. -/
theorem dedup_length_filter_ne {bs : List Nat} {b0 : Nat} (hb : b0 ∈ bs) :
    ((bs.filter fun b => !(b == b0)).dedup).length + 1 = bs.dedup.length := by
  have h1 : ((bs.filter fun b => !(b == b0)).dedup).length =
      ((bs.filter fun b => !(b == b0)).toFinset).card := (List.card_toFinset _).symm
  have h2 : bs.dedup.length = bs.toFinset.card := (List.card_toFinset _).symm
  rw [h1, h2, List.toFinset_filter]
  have hset : Finset.filter (fun x => (!(x == b0)) = true) bs.toFinset =
      bs.toFinset.erase b0 := by
    rw [← Finset.filter_ne']
    apply Finset.filter_congr
    intro x _
    simp
  rw [hset, Finset.card_erase_of_mem (List.mem_toFinset.mpr hb)]
  have : 0 < bs.toFinset.card := Finset.card_pos.mpr ⟨b0, List.mem_toFinset.mpr hb⟩
  omega

/-- What it means for an edge to lie inside a member set's schemas. -/
theorem edgeInside_iff {absorbed : List Plan} {e : EqEdge} :
    edgeInside absorbed e = true ↔
      (∃ a ∈ absorbed, e.lCol ∈ a.schema) ∧ ∃ a ∈ absorbed, e.rCol ∈ a.schema := by
  simp [edgeInside, List.any_eq_true]

/-- One pairing round adds one cross join per full pair. -/
theorem bushyRound_count :
    ∀ ps : List Plan, ((bushyRound ps).map countCrossJoins).sum =
      (ps.map countCrossJoins).sum + ps.length / 2
  | [] => by simp [bushyRound]
  | [p] => by simp [bushyRound]
  | p :: q :: rest => by
      have ih := bushyRound_count rest
      simp only [bushyRound, List.map_cons, List.sum_cons, List.length_cons]
      rw [show countCrossJoins (Plan.join p q [] []) =
        1 + (countCrossJoins p + countCrossJoins q) from by simp [countCrossJoins]]
      omega

/-- One pairing round keeps the odd leftover and halves the rest. -/
theorem bushyRound_length :
    ∀ ps : List Plan, (bushyRound ps).length = ps.length - ps.length / 2
  | [] => by simp [bushyRound]
  | [_] => by simp [bushyRound]
  | p :: q :: rest => by
      have ih := bushyRound_length rest
      simp only [bushyRound, List.length_cons]
      omega

/-- With sufficient fuel, combining n component trees introduces exactly
n - 1 cross joins on top of the trees' own counts. -/
theorem makeBushyJoinF_count :
    ∀ (fuel : Nat) (ps : List Plan), ps ≠ [] → ps.length ≤ fuel →
      countCrossJoins (makeBushyJoinF fuel ps) =
        (ps.map countCrossJoins).sum + (ps.length - 1)
  | 0, ps => by
      intro hne hlen
      exact absurd (List.length_eq_zero.mp (Nat.le_zero.mp hlen)) hne
  | fuel + 1, ps => by
      intro hne hlen
      rw [makeBushyJoinF]
      by_cases h1 : ps.length ≤ 1
      · rw [if_pos h1]
        obtain ⟨p, rfl⟩ : ∃ p, ps = [p] := by
          cases ps with
          | nil => exact absurd rfl hne
          | cons p rest =>
              cases rest with
              | nil => exact ⟨p, rfl⟩
              | cons q rest2 => simp at h1
        simp
      · rw [if_neg h1]
        push_neg at h1
        have hround_len := bushyRound_length ps
        have hround_ne : bushyRound ps ≠ [] := by
          intro hx
          have := congrArg List.length hx
          rw [hround_len] at this
          simp at this
          omega
        have hrec := makeBushyJoinF_count fuel (bushyRound ps) hround_ne (by omega)
        rw [hrec, bushyRound_count, hround_len]
        omega

/-- Combining the component trees introduces exactly (number of trees - 1)
cross joins on top of the trees' own counts. -/
theorem makeBushyJoin_count (ps : List Plan) (h : ps ≠ []) :
    countCrossJoins (makeBushyJoin ps) =
      (ps.map countCrossJoins).sum + (ps.length - 1) :=
  makeBushyJoinF_count ps.length ps h (le_refl _)

/-- A single component tree is returned unchanged, with no cross join. -/
theorem makeBushyJoin_singleton (t : Plan) : makeBushyJoin [t] = t := rfl

/-- In the connected-blocks setting, a candidate that passes the connectivity check
against a tree accumulating block-b0 members belongs to block b0 itself:
edges never cross blocks and columns locate members uniquely. -/
theorem check_some_winner_in_block {env : Env} {eqEdges : List EqEdge}
    {members : List Plan} {blockOf : Plan → Nat} {M : ℤ}
    (H : ConnBlocks env eqEdges members blockOf M)
    {b0 : Nat} {absorbed : List Plan} {tree : jrNode} {st : SolverState}
    (hstE : st.eqEdges = eqEdges)
    (habs_mem : ∀ m ∈ absorbed, m ∈ members)
    (habs_b0 : ∀ m ∈ absorbed, blockOf m = b0)
    (hschema : ∀ c, c ∈ tree.p.schema ↔ ∃ m ∈ absorbed, c ∈ m.schema)
    {node : jrNode} (hnode_mem : node.p ∈ members)
    {nj : Plan} {rem : List OtherCond}
    (hcheck : (checkConnectionAndMakeJoin st tree.p node.p).1 = (some nj, rem)) :
    blockOf node.p = b0 := by
  cases hc : collectUsedEdges tree.p.schema node.p.schema st.eqEdges with
  | nil =>
      rw [checkConnectionAndMakeJoin_of_nil st tree.p node.p hc] at hcheck
      exact absurd (congrArg Prod.fst hcheck) (by simp)
  | cons d ds =>
      have hne : collectUsedEdges tree.p.schema node.p.schema st.eqEdges ≠ [] := by
        rw [hc]
        exact List.cons_ne_nil d ds
      obtain ⟨d2, hd2, hcase⟩ := collectUsedEdges_ne_nil.mp hne
      rw [hstE] at hd2
      obtain ⟨a, ha, b, hb, hab, hblk, hla, hrb⟩ := H.edges_within d2 hd2
      rcases hcase with ⟨hlt, hrn⟩ | ⟨hln, hrt⟩
      · obtain ⟨m, hm, hcm⟩ := (hschema d2.lCol).mp hlt
        have hma : m = a := col_unique H.disjoint (habs_mem m hm) ha hcm hla
        have hnb : node.p = b := col_unique H.disjoint hnode_mem hb hrn hrb
        rw [hnb, ← hblk, ← hma]
        exact habs_b0 m hm
      · obtain ⟨m, hm, hcm⟩ := (hschema d2.rCol).mp hrt
        have hmb : m = b := col_unique H.disjoint (habs_mem m hm) hb hcm hrb
        have hna : node.p = a := col_unique H.disjoint hnode_mem ha hln hla
        rw [hna, hblk, ← hmb]
        exact habs_b0 m hm

/-- In the clique setting, a block-b0 member not yet absorbed always passes
the connectivity check against a tree that has absorbed at least one
block-b0 member. -/
theorem clique_node_connectable {env : Env} {eqEdges : List EqEdge}
    {members : List Plan} {blockOf : Plan → Nat} {M : ℤ}
    (H : CliqueBlocks env eqEdges members blockOf M)
    {b0 : Nat} {absorbed : List Plan} {tree : jrNode}
    (habs_ne : absorbed ≠ [])
    (habs_mem : ∀ m ∈ absorbed, m ∈ members)
    (habs_b0 : ∀ m ∈ absorbed, blockOf m = b0)
    (hschema : ∀ c, c ∈ tree.p.schema ↔ ∃ m ∈ absorbed, c ∈ m.schema)
    {rp : Plan} (hrp_mem : rp ∈ members) (hrp_b0 : blockOf rp = b0)
    (hrp_notin : rp ∉ absorbed) :
    collectUsedEdges tree.p.schema rp.schema eqEdges ≠ [] := by
  obtain ⟨a0, ha0⟩ := List.exists_mem_of_ne_nil absorbed habs_ne
  have ha0m := habs_mem a0 ha0
  have hne : a0 ≠ rp := by
    intro hx
    rw [hx] at ha0
    exact hrp_notin ha0
  obtain ⟨e, he, hor⟩ := H.block_clique a0 ha0m rp hrp_mem hne
    (by rw [habs_b0 a0 ha0, hrp_b0])
  apply collectUsedEdges_ne_nil.mpr
  rcases hor with ⟨hl, hr⟩ | ⟨hl, hr⟩
  · exact ⟨e, he, Or.inl ⟨(hschema e.lCol).mpr ⟨a0, ha0, hl⟩, hr⟩⟩
  · exact ⟨e, he, Or.inr ⟨hl, (hschema e.rCol).mpr ⟨a0, ha0, hr⟩⟩⟩

/-- In the connected-blocks setting, while a block-b0 member remains outside
the absorbed set, some unabsorbed block-b0 member passes the connectivity
check against the tree: walking the edge chain from an absorbed member to the
remaining one, the first edge leaving the absorbed set links the tree to an
unabsorbed member of the same block. -/
theorem conn_node_connectable {env : Env} {eqEdges : List EqEdge}
    {members : List Plan} {blockOf : Plan → Nat} {M : ℤ}
    (H : ConnBlocks env eqEdges members blockOf M)
    {b0 : Nat} {absorbed : List Plan} {tree : jrNode}
    (habs_ne : absorbed ≠ [])
    (habs_mem : ∀ m ∈ absorbed, m ∈ members)
    (habs_b0 : ∀ m ∈ absorbed, blockOf m = b0)
    (hschema : ∀ c, c ∈ tree.p.schema ↔ ∃ m ∈ absorbed, c ∈ m.schema)
    {rp : Plan} (hrp_mem : rp ∈ members) (hrp_b0 : blockOf rp = b0)
    (hrp_notin : rp ∉ absorbed) :
    ∃ np, np ∈ members ∧ np ∉ absorbed ∧ blockOf np = b0 ∧
      collectUsedEdges tree.p.schema np.schema eqEdges ≠ [] := by
  obtain ⟨a0, ha0⟩ := List.exists_mem_of_ne_nil absorbed habs_ne
  have hpath := H.block_conn a0 (habs_mem a0 ha0) rp hrp_mem
    (by rw [habs_b0 a0 ha0, hrp_b0])
  have key : ∀ z : Plan, Relation.ReflTransGen (memAdj eqEdges members) a0 z →
      z ∉ absorbed →
      ∃ x, x ∈ members ∧ x ∉ absorbed ∧ ∃ y ∈ absorbed, adjacentB eqEdges y x := by
    intro z hz
    induction hz with
    | refl =>
        intro h0
        exact absurd ha0 h0
    | @tail b c hab hbc ihz =>
        intro hc
        by_cases hbmem : b ∈ absorbed
        · exact ⟨c, hbc.2.1, hc, b, hbmem, hbc.2.2⟩
        · exact ihz hbmem
  obtain ⟨x, hxmem, hxnotin, y, hy, e, he, hor⟩ := key rp hpath hrp_notin
  obtain ⟨a2, ha2, b2, hb2, _, hblk2, hla2, hrb2⟩ := H.edges_within e he
  have hyb0 : blockOf y = b0 := habs_b0 y hy
  refine ⟨x, hxmem, hxnotin, ?_, ?_⟩
  · rcases hor with ⟨hl, hr⟩ | ⟨hl, hr⟩
    · have h1 : y = a2 := col_unique H.disjoint (habs_mem y hy) ha2 hl hla2
      have h2 : x = b2 := col_unique H.disjoint hxmem hb2 hr hrb2
      rw [h2, ← hblk2, ← h1, hyb0]
    · have h1 : x = a2 := col_unique H.disjoint hxmem ha2 hl hla2
      have h2 : y = b2 := col_unique H.disjoint (habs_mem y hy) hb2 hr hrb2
      rw [h1, hblk2, ← h2, hyb0]
  · apply collectUsedEdges_ne_nil.mpr
    rcases hor with ⟨hl, hr⟩ | ⟨hl, hr⟩
    · exact ⟨e, he, Or.inl ⟨(hschema e.lCol).mpr ⟨y, hy, hl⟩, hr⟩⟩
    · exact ⟨e, he, Or.inr ⟨hl, (hschema e.rCol).mpr ⟨y, hy, hr⟩⟩⟩

/-- In the connected-blocks setting, the edges matched when a tree over the absorbed
set merges with a fresh member are exactly those inside the extended set but
not inside the old set. -/
theorem used_edges_filter_eq {env : Env} {eqEdges : List EqEdge}
    {members : List Plan} {blockOf : Plan → Nat} {M : ℤ}
    (H : ConnBlocks env eqEdges members blockOf M)
    {absorbed : List Plan} {tree : jrNode}
    (habs_mem : ∀ m ∈ absorbed, m ∈ members)
    (hschema : ∀ c, c ∈ tree.p.schema ↔ ∃ m ∈ absorbed, c ∈ m.schema)
    {np : Plan} (hnp_mem : np ∈ members) (hnp_notin : np ∉ absorbed) :
    ∀ d ∈ eqEdges,
      decide ((d.lCol ∈ tree.p.schema ∧ d.rCol ∈ np.schema) ∨
        (d.lCol ∈ np.schema ∧ d.rCol ∈ tree.p.schema)) =
      (edgeInside (absorbed ++ [np]) d && !(edgeInside absorbed d)) := by
  intro d hd
  obtain ⟨a, ha, b, hb, hab, hblk, hla, hrb⟩ := H.edges_within d hd
  have hinsideAbs : edgeInside absorbed d = true ↔ (a ∈ absorbed ∧ b ∈ absorbed) := by
    rw [edgeInside_iff]
    constructor
    · rintro ⟨⟨m1, hm1, hc1⟩, ⟨m2, hm2, hc2⟩⟩
      have h1 : m1 = a := col_unique H.disjoint (habs_mem m1 hm1) ha hc1 hla
      have h2 : m2 = b := col_unique H.disjoint (habs_mem m2 hm2) hb hc2 hrb
      exact ⟨h1 ▸ hm1, h2 ▸ hm2⟩
    · rintro ⟨h1, h2⟩
      exact ⟨⟨a, h1, hla⟩, ⟨b, h2, hrb⟩⟩
  have habs2_mem : ∀ m ∈ absorbed ++ [np], m ∈ members := by
    intro m hm
    rcases List.mem_append.mp hm with hm | hm
    · exact habs_mem m hm
    · rw [List.mem_singleton.mp hm]
      exact hnp_mem
  have hinsideAbs2 : edgeInside (absorbed ++ [np]) d = true ↔
      (a ∈ absorbed ++ [np] ∧ b ∈ absorbed ++ [np]) := by
    rw [edgeInside_iff]
    constructor
    · rintro ⟨⟨m1, hm1, hc1⟩, ⟨m2, hm2, hc2⟩⟩
      have h1 : m1 = a := col_unique H.disjoint (habs2_mem m1 hm1) ha hc1 hla
      have h2 : m2 = b := col_unique H.disjoint (habs2_mem m2 hm2) hb hc2 hrb
      exact ⟨h1 ▸ hm1, h2 ▸ hm2⟩
    · rintro ⟨h1, h2⟩
      exact ⟨⟨a, h1, hla⟩, ⟨b, h2, hrb⟩⟩
  have hmatch : ((d.lCol ∈ tree.p.schema ∧ d.rCol ∈ np.schema) ∨
      (d.lCol ∈ np.schema ∧ d.rCol ∈ tree.p.schema)) ↔
      ((a ∈ absorbed ∧ b = np) ∨ (a = np ∧ b ∈ absorbed)) := by
    constructor
    · rintro (⟨hlt, hrn⟩ | ⟨hln, hrt⟩)
      · obtain ⟨m, hm, hcm⟩ := (hschema d.lCol).mp hlt
        have hma : m = a := col_unique H.disjoint (habs_mem m hm) ha hcm hla
        have hnb : b = np := col_unique H.disjoint hb hnp_mem hrb hrn
        exact Or.inl ⟨hma ▸ hm, hnb⟩
      · obtain ⟨m, hm, hcm⟩ := (hschema d.rCol).mp hrt
        have hmb : m = b := col_unique H.disjoint (habs_mem m hm) hb hcm hrb
        have hna : a = np := col_unique H.disjoint ha hnp_mem hla hln
        exact Or.inr ⟨hna, hmb ▸ hm⟩
    · rintro (⟨h1, h2⟩ | ⟨h1, h2⟩)
      · subst h2
        exact Or.inl ⟨(hschema d.lCol).mpr ⟨a, h1, hla⟩, hrb⟩
      · subst h1
        exact Or.inr ⟨hla, (hschema d.rCol).mpr ⟨b, h2, hrb⟩⟩
  rcases hcase : edgeInside (absorbed ++ [np]) d with _ | _
  all_goals rcases hcase2 : edgeInside absorbed d with _ | _
  all_goals simp only [Bool.and_false, Bool.and_true, Bool.not_true, Bool.not_false,
    Bool.false_and, Bool.true_and]
  · -- inside2 false, inside false: no match
    rw [decide_eq_false_iff_not]
    intro hm
    rcases hmatch.mp hm with ⟨h1, h2⟩ | ⟨h1, h2⟩
    · exact absurd (hinsideAbs2.mpr ⟨List.mem_append_left _ h1,
        by rw [h2]; exact List.mem_append_right _ (List.mem_singleton_self np)⟩)
        (by rw [hcase]; simp)
    · exact absurd (hinsideAbs2.mpr
        ⟨by rw [h1]; exact List.mem_append_right _ (List.mem_singleton_self np),
        List.mem_append_left _ h2⟩) (by rw [hcase]; simp)
  · -- inside2 false, inside true: impossible (monotone)
    exfalso
    obtain ⟨h1, h2⟩ := hinsideAbs.mp hcase2
    exact absurd (hinsideAbs2.mpr ⟨List.mem_append_left _ h1, List.mem_append_left _ h2⟩)
      (by rw [hcase]; simp)
  · -- inside2 true, inside false: match
    rw [decide_eq_true_eq]
    obtain ⟨h1, h2⟩ := hinsideAbs2.mp hcase
    have hnin : ¬ (a ∈ absorbed ∧ b ∈ absorbed) := by
      intro hx
      exact absurd (hinsideAbs.mpr hx) (by rw [hcase2]; simp)
    apply hmatch.mpr
    rcases List.mem_append.mp h1 with ha1 | ha1
    · rcases List.mem_append.mp h2 with hb1 | hb1
      · exact absurd ⟨ha1, hb1⟩ hnin
      · exact Or.inl ⟨ha1, List.mem_singleton.mp hb1⟩
    · rcases List.mem_append.mp h2 with hb1 | hb1
      · exact Or.inr ⟨List.mem_singleton.mp ha1, hb1⟩
      · exact absurd ((List.mem_singleton.mp ha1).trans
          (List.mem_singleton.mp hb1).symm) hab
  · -- inside2 true, inside true: no match (already inside)
    rw [decide_eq_false_iff_not]
    intro hm
    obtain ⟨h1, h2⟩ := hinsideAbs.mp hcase2
    rcases hmatch.mp hm with ⟨_, h4⟩ | ⟨h3, _⟩
    · exact hnp_notin (h4 ▸ h2)
    · exact hnp_notin (h3 ▸ h1)

/-- Base cumulative costs are nonnegative when all row counts are. -/
theorem baseNodeCumCost_nonneg (env : Env) (h : ∀ p, 0 ≤ env.rowCount p) :
    ∀ p, 0 ≤ baseNodeCumCost env p
  | .leaf i s => h (.leaf i s)
  | .join l r es os => by
      have hl := baseNodeCumCost_nonneg env h l
      have hr := baseNodeCumCost_nonneg env h r
      have hj := h (.join l r es os)
      unfold baseNodeCumCost
      linarith

/-- The heart of the component analysis: in the connected-blocks setting, a grow loop
started on a tree that has absorbed a non-empty b0-block subset of the
members absorbs exactly the remaining b0-block nodes of its group and
nothing else, preserving the predicate bookkeeping: residual predicates
move only between the pending list and the tree, attached edges are exactly
the edges inside the absorbed set, attachment stays sound, and no cartesian
join is ever created. -/
theorem growLoop_absorbs_block {env : Env} {eqEdges : List EqEdge}
    {members : List Plan} {blockOf : Plan → Nat} {M : ℤ}
    (H : ConnBlocks env eqEdges members blockOf M) (b0 : Nat) :
    ∀ (fuel : Nat) (absorbed : List Plan) (tree : jrNode) (R : List jrNode)
      (conds conds0 : List OtherCond) (rest0 : List Plan),
      R.length < fuel →
      absorbed ≠ [] →
      (∀ m ∈ absorbed, blockOf m = b0) →
      (absorbed ++ (R.map jrNode.p ++ rest0)).Perm members →
      (∀ m ∈ rest0, blockOf m ≠ b0) →
      (∀ r ∈ R, r.cumCost = baseNodeCumCost env r.p) →
      (∀ c, c ∈ tree.p.schema ↔ ∃ m ∈ absorbed, c ∈ m.schema) →
      tree.cumCost + M ≤ (absorbed.map (baseNodeCumCost env)).sum +
        (absorbed.length : ℤ) * M →
      (attachedConds tree.p ++ conds).Perm conds0 →
      ((attachedEdges tree.p).map normPair).Perm
        ((eqEdges.filter (edgeInside absorbed)).map normPair) →
      soundJoinsB tree.p = true →
      countCrossJoins tree.p = 0 →
      ∃ (t2 : jrNode) (R2 : List jrNode) (conds2 : List OtherCond)
        (absorbed2 : List Plan),
        growLoop env fuel tree
            { curJoinGroup := R, eqEdges := eqEdges, otherConds := conds } =
          .ok (t2, { curJoinGroup := R2, eqEdges := eqEdges, otherConds := conds2 }) ∧
        absorbed2.Perm
          (absorbed ++ (R.map jrNode.p).filter fun m => blockOf m == b0) ∧
        (∀ m ∈ absorbed2, blockOf m = b0) ∧
        (R2.map jrNode.p).Perm ((R.map jrNode.p).filter fun m => !(blockOf m == b0)) ∧
        (∀ r ∈ R2, r.cumCost = baseNodeCumCost env r.p) ∧
        (∀ c, c ∈ t2.p.schema ↔ ∃ m ∈ absorbed2, c ∈ m.schema) ∧
        (attachedConds t2.p ++ conds2).Perm conds0 ∧
        ((attachedEdges t2.p).map normPair).Perm
          ((eqEdges.filter (edgeInside absorbed2)).map normPair) ∧
        soundJoinsB t2.p = true ∧
        countCrossJoins t2.p = 0 ∧
        ((t2 = tree ∧ R2 = R ∧ conds2 = conds) ∨
          ∀ cd ∈ conds2, exprFromSchema cd t2.p.schema = false) := by
  intro fuel
  induction fuel with
  | zero =>
      intro absorbed tree R conds conds0 rest0 hfuel
      exact absurd hfuel (Nat.not_lt_zero _)
  | succ fuel ih =>
      intro absorbed tree R conds conds0 rest0 hfuel habs_ne habs_b0 hperm hrest0
        hRcost hschema hcost hconds hedges hsound hcross
      -- shared facts
      have hM0 : 0 ≤ M := le_trans (H.row_nonneg (Plan.leaf 0 [])) (H.row_le _)
      have hbase_nonneg := baseNodeCumCost_nonneg env H.row_nonneg
      have hnodupAll : (absorbed ++ (R.map jrNode.p ++ rest0)).Nodup :=
        hperm.nodup_iff.mpr H.nodup
      have hdisj : ∀ m ∈ absorbed, m ∉ R.map jrNode.p := by
        intro m hm hmr
        have := (List.nodup_append.mp hnodupAll).2.2
        exact this hm (List.mem_append_left _ hmr)
      have habs_mem : ∀ m ∈ absorbed, m ∈ members := by
        intro m hm
        exact hperm.mem_iff.mp (List.mem_append_left _ hm)
      have hR_mem : ∀ r ∈ R, r.p ∈ members := by
        intro r hr
        exact hperm.mem_iff.mp
          (List.mem_append_right _ (List.mem_append_left _ (List.mem_map_of_mem _ hr)))
      have hR_notin : ∀ r ∈ R, r.p ∉ absorbed := by
        intro r hr hin
        exact hdisj r.p hin (List.mem_map_of_mem _ hr)
      have hcover : ∀ m, m ∈ members → blockOf m = b0 →
          m ∈ absorbed ∨ m ∈ R.map jrNode.p := by
        intro m hm hmb0
        rcases List.mem_append.mp (hperm.mem_iff.mpr hm) with h | h
        · exact Or.inl h
        rcases List.mem_append.mp h with h | h
        · exact Or.inr h
        · exact absurd hmb0 (hrest0 m h)
      -- the sum decomposition of the global bound
      have hsum_split : sumBase env members =
          (absorbed.map (baseNodeCumCost env)).sum +
            ((R.map jrNode.p).map (baseNodeCumCost env)).sum +
            (rest0.map (baseNodeCumCost env)).sum := by
        have hsq := (hperm.map (baseNodeCumCost env)).sum_eq
        rw [sumBase, ← hsq]
        simp only [List.map_append, List.sum_append, List.map_map]
        ring
      have habs_sum_nonneg : 0 ≤ (absorbed.map (baseNodeCumCost env)).sum :=
        List.sum_nonneg (by
          intro x hx
          obtain ⟨m, _, rfl⟩ := List.mem_map.mp hx
          exact hbase_nonneg m)
      have hR_sum_nonneg : 0 ≤ ((R.map jrNode.p).map (baseNodeCumCost env)).sum :=
        List.sum_nonneg (by
          intro x hx
          obtain ⟨m, _, rfl⟩ := List.mem_map.mp hx
          exact hbase_nonneg m)
      have hrest_sum_nonneg : 0 ≤ (rest0.map (baseNodeCumCost env)).sum :=
        List.sum_nonneg (by
          intro x hx
          obtain ⟨m, _, rfl⟩ := List.mem_map.mp hx
          exact hbase_nonneg m)
      have habs_len_le : (absorbed.length : ℤ) ≤ (members.length : ℤ) := by
        have := hperm.length_eq
        simp [List.length_append] at this
        omega
      have hB_nonneg : 0 ≤ sumBase env members := by
        rw [hsum_split]
        linarith
      -- every candidate joining the tree with a group node costs less than
      -- the sentinel
      have hcand_lt : ∀ r ∈ R, ∀ nj : Plan,
          calcJoinCumCost env nj tree r < maxFloat64 := by
        intro r hr nj
        have hbr : r.cumCost = baseNodeCumCost env r.p := hRcost r hr
        have hbase_le : baseNodeCumCost env r.p ≤
            ((R.map jrNode.p).map (baseNodeCumCost env)).sum := by
          apply List.single_le_sum
          · intro x hx
            obtain ⟨m, _, rfl⟩ := List.mem_map.mp hx
            exact hbase_nonneg m
          · exact List.mem_map_of_mem _ (List.mem_map_of_mem _ hr)
        have hrow := H.row_le nj
        have hlenM : (absorbed.length : ℤ) * M ≤ (members.length : ℤ) * M :=
          mul_le_mul_of_nonneg_right habs_len_le hM0
        have hbound := H.bound
        have hexpand : ((members.length : ℤ) + 1) * M = (members.length : ℤ) * M + M := by
          ring
        rw [hexpand] at hbound
        unfold calcJoinCumCost
        rw [hbr]
        have hS_le : (absorbed.map (baseNodeCumCost env)).sum ≤ sumBase env members := by
          rw [hsum_split]
          linarith
        have hbase_le2 : baseNodeCumCost env r.p ≤ sumBase env members := by
          rw [hsum_split]
          linarith
        linarith
      -- the scan cannot fail
      cases hfb : findBest env tree R 0
          { curJoinGroup := R, eqEdges := eqEdges, otherConds := conds } initBest with
      | error e =>
          obtain ⟨j, n, nj, rem, _, _, hd⟩ := findBest_error_spec env tree R 0 _ initBest e hfb
          rw [H.derive_ok nj] at hd
          exact Option.noConfusion hd
      | ok pair =>
          rcases pair with ⟨b, st1⟩
          have hst1 : st1 = { curJoinGroup := R, eqEdges := eqEdges, otherConds := conds } :=
            findBest_state env tree _ _ _ _ _ _ hfb
          subst hst1
          cases hbj : b.bestJoin with
          | none =>
              -- no remaining node of block b0: the component is exhausted
              have hnob0 : ∀ r ∈ R, blockOf r.p ≠ b0 := by
                intro r hr hb0
                obtain ⟨np, hnp_mem2, hnp_notin2, hnp_b0, hnp_conn⟩ :=
                  conn_node_connectable H habs_ne habs_mem habs_b0 hschema
                    (hR_mem r hr) hb0 (hR_notin r hr)
                have hnpR : np ∈ R.map jrNode.p := by
                  rcases hcover np hnp_mem2 hnp_b0 with h | h
                  · exact absurd h hnp_notin2
                  · exact h
                obtain ⟨r2, hr2, hr2p⟩ := List.mem_map.mp hnpR
                have hconn2 : collectUsedEdges tree.p.schema r2.p.schema eqEdges ≠ [] := by
                  rw [hr2p]
                  exact hnp_conn
                obtain ⟨e0, es0, hc0⟩ := List.exists_cons_of_ne_nil hconn2
                have hcheck0 := checkConnectionAndMakeJoin_of_cons
                  { curJoinGroup := R, eqEdges := eqEdges, otherConds := conds }
                  tree.p r2.p e0 es0 hc0
                have hccost := @candidateCost_some env _ _ _ _ _ hcheck0
                obtain ⟨jr, hjr⟩ := List.getElem?_of_mem hr2
                have hspec := findBest_ok_spec env tree R 0 _ initBest b _ hfb (by
                  show (-1 : Int) ≤ (0 : Int)
                  omega)
                have hle := hspec.2.2.1 jr r2 _ hjr hccost
                rcases hspec.2.1 with hbi | ⟨_, hhit⟩
                · rw [hbi] at hle
                  simp only [initBest] at hle
                  exact absurd hle (not_le.mpr (hcand_lt r2 hr2 _))
                · obtain ⟨_, _, _, _, _, _, _, hbj2, _⟩ := hhit
                  rw [hbj] at hbj2
                  exact Option.noConfusion hbj2
              refine ⟨tree, R, conds, absorbed, ?_, ?_, habs_b0, ?_, hRcost, hschema,
                hconds, hedges, hsound, hcross, Or.inl ⟨rfl, rfl, rfl⟩⟩
              · exact growLoop_succ_none hfb hbj
              · have : (R.map jrNode.p).filter (fun m => blockOf m == b0) = [] := by
                  rw [List.filter_eq_nil_iff]
                  intro m hm
                  obtain ⟨r, hr, rfl⟩ := List.mem_map.mp hm
                  simp only [beq_iff_eq]
                  exact hnob0 r hr
                rw [this, List.append_nil]
              · have : (R.map jrNode.p).filter (fun m => !(blockOf m == b0)) =
                    R.map jrNode.p := by
                  rw [List.filter_eq_self]
                  intro m hm
                  obtain ⟨r, hr, rfl⟩ := List.mem_map.mp hm
                  simp only [Bool.not_eq_true', beq_eq_false_iff_ne, ne_eq]
                  exact hnob0 r hr
                rw [this]
          | some bj =>
              -- a candidate was committed: unpack the winning hit
              obtain ⟨hhit, hblt⟩ := findBest_commit env tree hfb (by rw [hbj]; rfl)
              obtain ⟨j, node, nj, rem, hj, hcheck, _, hbjoin, hbrem, hbidx, hbcost⟩ := hhit
              rw [hbjoin] at hbj
              obtain rfl := Option.some.inj hbj
              have hnodeR : node ∈ R := List.getElem?_mem hj
              have hnode_mem : node.p ∈ members := hR_mem node hnodeR
              have hnode_notin : node.p ∉ absorbed := hR_notin node hnodeR
              have hnode_b0 : blockOf node.p = b0 :=
                check_some_winner_in_block H rfl habs_mem habs_b0 hschema hnode_mem hcheck
              obtain ⟨li, ls, hleaf⟩ := H.leaves node.p hnode_mem
              -- unpack the check
              cases hc : collectUsedEdges tree.p.schema node.p.schema eqEdges with
              | nil =>
                  rw [checkConnectionAndMakeJoin_of_nil
                    { curJoinGroup := R, eqEdges := eqEdges, otherConds := conds }
                    tree.p node.p hc] at hcheck
                  exact absurd (congrArg Prod.fst hcheck) (by simp)
              | cons e0 es0 =>
                  rw [checkConnectionAndMakeJoin_of_cons
                    { curJoinGroup := R, eqEdges := eqEdges, otherConds := conds }
                    tree.p node.p e0 es0 hc] at hcheck
                  simp only [Prod.mk.injEq, Option.some.injEq] at hcheck
                  obtain ⟨hnj_eq, hrem_eq⟩ := hcheck
                  have hjlt : j < R.length := by
                    by_contra hge
                    push_neg at hge
                    rw [List.getElem?_eq_none hge] at hj
                    exact Option.noConfusion hj
                  have hidxj : b.bestIdx.toNat = j := by
                    rw [hbidx]
                    simp
                  -- list permutation: the winner leaves the group
                  have hRperm : R.Perm (node :: R.eraseIdx j) := perm_cons_eraseIdx R j node hj
                  have hmapRperm : (R.map jrNode.p).Perm
                      (node.p :: (R.eraseIdx j).map jrNode.p) := by
                    have := hRperm.map jrNode.p
                    simpa using this
                  -- invariants for the recursive call
                  have hpermIH : ((absorbed ++ [node.p]) ++
                      ((R.eraseIdx j).map jrNode.p ++ rest0)).Perm members := by
                    have h1 : (R.map jrNode.p ++ rest0).Perm
                        (node.p :: ((R.eraseIdx j).map jrNode.p ++ rest0)) := by
                      have := hmapRperm.append_right rest0
                      simpa using this
                    calc (absorbed ++ [node.p]) ++ ((R.eraseIdx j).map jrNode.p ++ rest0)
                        = absorbed ++ (node.p :: ((R.eraseIdx j).map jrNode.p ++ rest0)) := by
                          simp
                      _ ~ absorbed ++ (R.map jrNode.p ++ rest0) :=
                          List.Perm.append_left absorbed h1.symm
                      _ ~ members := hperm
                  have habs_b0IH : ∀ m ∈ absorbed ++ [node.p], blockOf m = b0 := by
                    intro m hm
                    rcases List.mem_append.mp hm with hm | hm
                    · exact habs_b0 m hm
                    · rw [List.mem_singleton.mp hm]
                      exact hnode_b0
                  have habs_neIH : absorbed ++ [node.p] ≠ [] := by
                    simp
                  have hRcostIH : ∀ r ∈ R.eraseIdx j, r.cumCost = baseNodeCumCost env r.p :=
                    fun r hr => hRcost r ((List.eraseIdx_sublist R j).mem hr)
                  have hschemaIH : ∀ c, c ∈ nj.schema ↔
                      ∃ m ∈ absorbed ++ [node.p], c ∈ m.schema := by
                    intro c
                    rw [← hnj_eq]
                    have hmem : c ∈ (Plan.join tree.p node.p (e0 :: es0)
                        (List.filter
                          (fun c2 => exprFromSchema c2 (mergeSchema tree.p.schema node.p.schema))
                          conds)).schema ↔
                        c ∈ tree.p.schema ∨ c ∈ node.p.schema := by
                      show c ∈ mergeSchema tree.p.schema node.p.schema ↔ _
                      exact List.mem_append
                    rw [hmem]
                    constructor
                    · rintro (hc2 | hc2)
                      · obtain ⟨m, hm, hcm⟩ := (hschema c).mp hc2
                        exact ⟨m, List.mem_append_left _ hm, hcm⟩
                      · exact ⟨node.p, List.mem_append_right _ (List.mem_singleton_self _), hc2⟩
                    · rintro ⟨m, hm, hcm⟩
                      rcases List.mem_append.mp hm with hm | hm
                      · exact Or.inl ((hschema c).mpr ⟨m, hm, hcm⟩)
                      · rw [List.mem_singleton.mp hm] at hcm
                        exact Or.inr hcm
                  have hnode_cost : node.cumCost = baseNodeCumCost env node.p :=
                    hRcost node hnodeR
                  have hcostIH : b.bestCost + M ≤
                      ((absorbed ++ [node.p]).map (baseNodeCumCost env)).sum +
                        ((absorbed ++ [node.p]).length : ℤ) * M := by
                    rw [hbcost]
                    unfold calcJoinCumCost
                    rw [hnode_cost]
                    have hrow := H.row_le nj
                    have hsum2 : ((absorbed ++ [node.p]).map (baseNodeCumCost env)).sum =
                        (absorbed.map (baseNodeCumCost env)).sum +
                          baseNodeCumCost env node.p := by
                      simp
                    have hlen2 : (((absorbed ++ [node.p]).length : ℕ) : ℤ) =
                        (absorbed.length : ℤ) + 1 := by
                      simp
                    rw [hsum2, hlen2]
                    have hexpand : ((absorbed.length : ℤ) + 1) * M =
                        (absorbed.length : ℤ) * M + M := by
                      ring
                    rw [hexpand]
                    linarith
                  -- residual bookkeeping for the recursive call
                  have hacleaf : attachedConds node.p = [] := by
                    rw [hleaf]
                    rfl
                  have haeleaf : attachedEdges node.p = [] := by
                    rw [hleaf]
                    rfl
                  have hcondsIH : (attachedConds nj ++ rem).Perm conds0 := by
                    rw [← hnj_eq, ← hrem_eq]
                    show ((List.filter _ conds ++
                      (attachedConds tree.p ++ attachedConds node.p)) ++ _).Perm conds0
                    rw [hacleaf, List.append_nil]
                    calc (List.filter
                          (fun c => exprFromSchema c (mergeSchema tree.p.schema node.p.schema))
                          conds ++ attachedConds tree.p) ++
                        List.filter
                          (fun c => !exprFromSchema c (mergeSchema tree.p.schema node.p.schema))
                          conds
                        ~ (attachedConds tree.p ++ List.filter
                            (fun c => exprFromSchema c (mergeSchema tree.p.schema node.p.schema))
                            conds) ++
                          List.filter
                            (fun c => !exprFromSchema c (mergeSchema tree.p.schema node.p.schema))
                            conds :=
                          List.Perm.append_right _ List.perm_append_comm
                      _ = attachedConds tree.p ++
                          (List.filter
                            (fun c => exprFromSchema c (mergeSchema tree.p.schema node.p.schema))
                            conds ++
                          List.filter
                            (fun c => !exprFromSchema c (mergeSchema tree.p.schema node.p.schema))
                            conds) := by
                          rw [List.append_assoc]
                      _ ~ attachedConds tree.p ++ conds :=
                          List.Perm.append_left _ (List.filter_append_perm _ _)
                      _ ~ conds0 := hconds
                  have hedgesIH : ((attachedEdges nj).map normPair).Perm
                      ((eqEdges.filter (edgeInside (absorbed ++ [node.p]))).map normPair) := by
                    rw [← hnj_eq]
                    show (((e0 :: es0) ++
                      (attachedEdges tree.p ++ attachedEdges node.p)).map normPair).Perm _
                    rw [haeleaf, List.append_nil, List.map_append]
                    have hused : (e0 :: es0).map normPair =
                        (eqEdges.filter fun d =>
                          decide ((d.lCol ∈ tree.p.schema ∧ d.rCol ∈ node.p.schema) ∨
                            (d.lCol ∈ node.p.schema ∧ d.rCol ∈ tree.p.schema))).map
                          normPair := by
                      rw [← hc]
                      exact collectUsedEdges_map_norm _ _ _
                    have hfeq : (eqEdges.filter fun d =>
                        decide ((d.lCol ∈ tree.p.schema ∧ d.rCol ∈ node.p.schema) ∨
                          (d.lCol ∈ node.p.schema ∧ d.rCol ∈ tree.p.schema))) =
                        eqEdges.filter fun d =>
                          edgeInside (absorbed ++ [node.p]) d && !(edgeInside absorbed d) :=
                      List.filter_congr
                        (used_edges_filter_eq H habs_mem hschema hnode_mem hnode_notin)
                    have hmono : ∀ d ∈ eqEdges, edgeInside absorbed d = true →
                        edgeInside (absorbed ++ [node.p]) d = true := by
                      intro d _ hin
                      obtain ⟨⟨a, ha, hca⟩, ⟨a2, ha2, hca2⟩⟩ := edgeInside_iff.mp hin
                      exact edgeInside_iff.mpr
                        ⟨⟨a, List.mem_append_left _ ha, hca⟩,
                          ⟨a2, List.mem_append_left _ ha2, hca2⟩⟩
                    have hsplit := filter_sub_perm (p := edgeInside absorbed)
                      (q := edgeInside (absorbed ++ [node.p])) eqEdges hmono
                    calc ((e0 :: es0).map normPair) ++ ((attachedEdges tree.p).map normPair)
                        ~ ((eqEdges.filter fun d =>
                            edgeInside (absorbed ++ [node.p]) d && !(edgeInside absorbed d)).map
                            normPair) ++
                          ((eqEdges.filter (edgeInside absorbed)).map normPair) := by
                          rw [hused, hfeq]
                          exact List.Perm.append_left _ hedges
                      _ = ((eqEdges.filter fun d =>
                            edgeInside (absorbed ++ [node.p]) d && !(edgeInside absorbed d)) ++
                            eqEdges.filter (edgeInside absorbed)).map normPair := by
                          rw [List.map_append]
                      _ ~ ((eqEdges.filter (edgeInside absorbed) ++
                            eqEdges.filter fun d =>
                              edgeInside (absorbed ++ [node.p]) d &&
                                !(edgeInside absorbed d)).map normPair) :=
                          (List.perm_append_comm).map normPair
                      _ ~ ((eqEdges.filter (edgeInside (absorbed ++ [node.p]))).map normPair) :=
                          hsplit.map normPair
                  have hsoundIH : soundJoinsB nj = true := by
                    rw [← hnj_eq]
                    show soundJoinsB (Plan.join tree.p node.p (e0 :: es0) _) = true
                    simp only [soundJoinsB, Bool.and_eq_true, List.all_eq_true]
                    refine ⟨?_, ?_, hsound, by rw [hleaf]; rfl⟩
                    · intro e' he'
                      rw [← hc] at he'
                      obtain ⟨d, _, hcase⟩ := mem_collectUsedEdges.mp he'
                      rcases hcase with ⟨h1, h2, rfl⟩ | ⟨_, h1, h2, rfl⟩
                      · constructor
                        · exact List.elem_iff.mpr (List.mem_append_left _ h1)
                        · exact List.elem_iff.mpr (List.mem_append_right _ h2)
                      · constructor
                        · exact List.elem_iff.mpr (List.mem_append_left _ h2)
                        · exact List.elem_iff.mpr (List.mem_append_right _ h1)
                    · intro o ho
                      exact (List.mem_filter.mp ho).2
                  have hcrossIH : countCrossJoins nj = 0 := by
                    rw [← hnj_eq]
                    show countCrossJoins (Plan.join tree.p node.p (e0 :: es0) _) = 0
                    simp only [countCrossJoins]
                    rw [if_neg (by simp), hcross]
                    have : countCrossJoins node.p = 0 := by
                      rw [hleaf]
                      rfl
                    rw [this]
                  have hfuelIH : (R.eraseIdx j).length < fuel := by
                    rw [List.length_eraseIdx]
                    simp only [if_pos hjlt]
                    omega
                  -- recursive call
                  obtain ⟨t2, R2, conds2, absorbed2, heq2, habs2, hb02, hR2, hR2cost,
                      hschema2, hconds2, hedges2, hsound2, hcross2, hlast2⟩ :=
                    ih (absorbed ++ [node.p]) { p := nj, cumCost := b.bestCost }
                      (R.eraseIdx j) rem conds0 rest0 hfuelIH habs_neIH habs_b0IH hpermIH
                      hrest0 hRcostIH hschemaIH hcostIH hcondsIH hedgesIH hsoundIH hcrossIH
                  refine ⟨t2, R2, conds2, absorbed2, ?_, ?_, hb02, ?_, hR2cost, hschema2,
                    hconds2, hedges2, hsound2, hcross2, ?_⟩
                  · rw [growLoop_succ_commit hfb hbjoin, hidxj, hbrem]
                    exact heq2
                  · -- absorbed2 against the original group
                    have hfR : ((R.map jrNode.p).filter fun m => blockOf m == b0).Perm
                        (node.p :: ((R.eraseIdx j).map jrNode.p).filter
                          fun m => blockOf m == b0) := by
                      have h1 := hmapRperm.filter fun m => blockOf m == b0
                      rw [List.filter_cons] at h1
                      rw [if_pos (by simp [hnode_b0])] at h1
                      exact h1
                    calc absorbed2
                        ~ (absorbed ++ [node.p]) ++
                            ((R.eraseIdx j).map jrNode.p).filter
                              (fun m => blockOf m == b0) := habs2
                      _ = absorbed ++ (node.p ::
                            ((R.eraseIdx j).map jrNode.p).filter
                              (fun m => blockOf m == b0)) := by simp
                      _ ~ absorbed ++
                            ((R.map jrNode.p).filter fun m => blockOf m == b0) :=
                          List.Perm.append_left absorbed hfR.symm
                  · -- the rest of the group against the original group
                    have hfR : ((R.map jrNode.p).filter fun m => !(blockOf m == b0)).Perm
                        (((R.eraseIdx j).map jrNode.p).filter fun m => !(blockOf m == b0)) := by
                      have h1 := hmapRperm.filter fun m => !(blockOf m == b0)
                      rw [List.filter_cons] at h1
                      rw [if_neg (by simp [hnode_b0])] at h1
                      exact h1
                    exact hR2.trans hfR.symm
                  · -- pending predicates after the last filter are uncovered
                    rcases hlast2 with ⟨ht2, _, hconds2eq⟩ | hright
                    · right
                      intro cd hcd
                      rw [hconds2eq, ← hrem_eq] at hcd
                      have hmem := List.mem_filter.mp hcd
                      have hfalse : exprFromSchema cd
                          (mergeSchema tree.p.schema node.p.schema) = false := by
                        simpa using hmem.2
                      rw [ht2]
                      show exprFromSchema cd nj.schema = false
                      rw [← hnj_eq]
                      exact hfalse
                    · exact Or.inr hright

/-- In the connected-blocks setting, the outer loop returns exactly one component tree
per distinct block of the remaining group, each free of cartesian joins. -/
theorem componentLoop_blocks {env : Env} {eqEdges : List EqEdge}
    {members : List Plan} {blockOf : Plan → Nat} {M : ℤ}
    (H : ConnBlocks env eqEdges members blockOf M) :
    ∀ (fuel : Nat) (R : List jrNode) (conds : List OtherCond) (acc : List Plan)
      (rest0 : List Plan),
      R.length < fuel →
      (R.map jrNode.p ++ rest0).Perm members →
      (∀ m ∈ rest0, ∀ r ∈ R, blockOf m ≠ blockOf r.p) →
      (∀ r ∈ R, r.cumCost = baseNodeCumCost env r.p) →
      ∃ trees, componentLoop env fuel
          { curJoinGroup := R, eqEdges := eqEdges, otherConds := conds } acc =
          .ok (acc ++ trees) ∧
        trees.length = numBlocks blockOf (R.map jrNode.p) ∧
        ∀ t ∈ trees, countCrossJoins t = 0 := by
  intro fuel
  induction fuel with
  | zero =>
      intro R conds acc rest0 hfuel
      exact absurd hfuel (Nat.not_lt_zero _)
  | succ fuel ih =>
      intro R conds acc rest0 hfuel hperm hsep hRcost
      cases R with
      | nil =>
          refine ⟨[], ?_, rfl, by intro t ht; exact absurd ht (List.not_mem_nil t)⟩
          rw [componentLoop_nil rfl, List.append_nil]
      | cons seed rest =>
          have hseed_mem : seed.p ∈ members :=
            hperm.mem_iff.mp (List.mem_append_left _
              (List.mem_map_of_mem _ (List.mem_cons_self seed rest)))
          obtain ⟨si, ss, hseedleaf⟩ := H.leaves seed.p hseed_mem
          have hseedcost : seed.cumCost = baseNodeCumCost env seed.p :=
            hRcost seed (List.mem_cons_self seed rest)
          -- the grow loop absorbs the whole block of the seed
          have hpermG : ([seed.p] ++ (rest.map jrNode.p ++ rest0)).Perm members := by
            simpa using hperm
          have hedgesG : ((attachedEdges seed.p).map normPair).Perm
              ((eqEdges.filter (edgeInside [seed.p])).map normPair) := by
            have h1 : attachedEdges seed.p = [] := by
              rw [hseedleaf]
              rfl
            have h2 : eqEdges.filter (edgeInside [seed.p]) = [] := by
              rw [List.filter_eq_nil_iff]
              intro e he hin
              obtain ⟨⟨a1, ha1, hc1⟩, ⟨a2, ha2, hc2⟩⟩ := edgeInside_iff.mp hin
              rw [List.mem_singleton.mp ha1] at hc1
              rw [List.mem_singleton.mp ha2] at hc2
              obtain ⟨a, ha, b2, hb2, hab, _, hla, hrb⟩ := H.edges_within e he
              have h3 : a = seed.p := col_unique H.disjoint ha hseed_mem hla hc1
              have h4 : b2 = seed.p := col_unique H.disjoint hb2 hseed_mem hrb hc2
              exact hab (h3.trans h4.symm)
            rw [h1, h2]
          obtain ⟨t2, R2, conds2, absorbed2, heq, habs2, hb02, hR2, hR2cost, hschema2,
              hconds2, hedges2, hsound2, hcross2, _⟩ :=
            growLoop_absorbs_block H (blockOf seed.p) (rest.length + 1) [seed.p] seed rest
              conds conds rest0
              (Nat.lt_succ_self _)
              (List.cons_ne_nil _ _)
              (by
                intro m hm
                rw [List.mem_singleton.mp hm])
              hpermG
              (fun m hm => hsep m hm seed (List.mem_cons_self seed rest))
              (fun r hr => hRcost r (List.mem_cons_of_mem seed hr))
              (by
                intro c
                simp)
              (by simp [hseedcost])
              (by
                have h1 : attachedConds seed.p = [] := by
                  rw [hseedleaf]
                  rfl
                rw [h1]
                exact List.Perm.refl _)
              hedgesG
              (by rw [hseedleaf]; rfl)
              (by rw [hseedleaf]; rfl)
          -- one outer iteration
          have hconstr : constructConnectedJoinTree env
              { curJoinGroup := seed :: rest, eqEdges := eqEdges, otherConds := conds } =
              .ok (t2, { curJoinGroup := R2, eqEdges := eqEdges, otherConds := conds2 }) := by
            rw [constructConnectedJoinTree_cons rfl]
            exact heq
          have hstep := @componentLoop_cons_ok env fuel _ acc _ _ _ _ rfl hconstr
          -- lengths and the recursive call
          have hR2len : R2.length ≤ rest.length := by
            have h1 := hR2.length_eq
            have h2 : (R2.map jrNode.p).length = R2.length := List.length_map _ _
            have h3 := List.length_filter_le (fun m => !(blockOf m == blockOf seed.p))
              (rest.map jrNode.p)
            have h4 : (rest.map jrNode.p).length = rest.length := List.length_map _ _
            omega
          have hpermIH : (R2.map jrNode.p ++ (rest0 ++ absorbed2)).Perm members := by
            have hstep1 : (R2.map jrNode.p ++ (rest0 ++ absorbed2)).Perm
                (((rest.map jrNode.p).filter fun m => !(blockOf m == blockOf seed.p)) ++
                  (rest0 ++ (seed.p ::
                    ((rest.map jrNode.p).filter fun m => blockOf m == blockOf seed.p)))) :=
              hR2.append ((List.Perm.refl rest0).append (habs2.trans (by
                exact List.Perm.refl _)))
            have hstep2 : (((rest.map jrNode.p).filter
                  fun m => !(blockOf m == blockOf seed.p)) ++
                (rest0 ++ (seed.p ::
                  ((rest.map jrNode.p).filter fun m => blockOf m == blockOf seed.p)))).Perm
                (seed.p :: (((rest.map jrNode.p).filter
                    fun m => !(blockOf m == blockOf seed.p)) ++
                  (rest0 ++
                    ((rest.map jrNode.p).filter fun m => blockOf m == blockOf seed.p)))) := by
              refine List.Perm.trans (List.Perm.append_left _ List.perm_middle) ?_
              exact List.perm_middle
            have hstep3 : ((((rest.map jrNode.p).filter
                  fun m => !(blockOf m == blockOf seed.p)) ++
                (rest0 ++
                  ((rest.map jrNode.p).filter fun m => blockOf m == blockOf seed.p)))).Perm
                (rest.map jrNode.p ++ rest0) := by
              refine List.Perm.trans (List.Perm.append_left _ List.perm_append_comm) ?_
              rw [← List.append_assoc]
              refine List.Perm.append_right rest0 ?_
              refine List.Perm.trans List.perm_append_comm ?_
              exact List.filter_append_perm _ _
            refine hstep1.trans (hstep2.trans ?_)
            refine List.Perm.trans (hstep3.cons seed.p) ?_
            exact hperm
          have hsepIH : ∀ m ∈ rest0 ++ absorbed2, ∀ r ∈ R2,
              blockOf m ≠ blockOf r.p := by
            intro m hm r hrR2
            have hrp : r.p ∈ (rest.map jrNode.p).filter
                (fun m2 => !(blockOf m2 == blockOf seed.p)) :=
              (hR2.mem_iff).mp (List.mem_map_of_mem _ hrR2)
            have hrfilter := List.mem_filter.mp hrp
            have hrne : blockOf r.p ≠ blockOf seed.p := by
              have h5 := hrfilter.2
              simp only [Bool.not_eq_true', beq_eq_false_iff_ne, ne_eq] at h5
              exact h5
            rcases List.mem_append.mp hm with hm | hm
            · obtain ⟨r3, hr3, hr3p⟩ := List.mem_map.mp hrfilter.1
              have h6 := hsep m hm r3 (List.mem_cons_of_mem seed hr3)
              rw [hr3p] at h6
              exact h6
            · rw [hb02 m hm]
              exact fun hx => hrne hx.symm
          obtain ⟨trees2, heq3, hlen3, hcross3⟩ := ih R2 conds2 (acc ++ [t2.p])
            (rest0 ++ absorbed2)
            (by
              have hlc : (seed :: rest).length = rest.length + 1 := rfl
              omega)
            hpermIH hsepIH hR2cost
          refine ⟨t2.p :: trees2, ?_, ?_, ?_⟩
          · rw [hstep, heq3]
            simp
          · -- block counting
            have hnb2 : numBlocks blockOf (R2.map jrNode.p) =
                numBlocks blockOf ((rest.map jrNode.p).filter
                  fun m => !(blockOf m == blockOf seed.p)) := by
              unfold numBlocks
              exact ((hR2.map blockOf).dedup).length_eq
            have hcomm : ((rest.map jrNode.p).filter
                  fun m => !(blockOf m == blockOf seed.p)).map blockOf =
                ((rest.map jrNode.p).map blockOf).filter
                  fun bk => !(bk == blockOf seed.p) := by
              conv_rhs => rw [List.filter_map]
              rfl
            have hbmem : blockOf seed.p ∈
                ((seed :: rest).map jrNode.p).map blockOf := by
              simp
            have hdl := dedup_length_filter_ne hbmem
            have hfilter_cons : (((seed :: rest).map jrNode.p).map blockOf).filter
                (fun bk => !(bk == blockOf seed.p)) =
                ((rest.map jrNode.p).map blockOf).filter
                  (fun bk => !(bk == blockOf seed.p)) := by
              simp only [List.map_cons, List.filter_cons]
              rw [if_neg (by simp)]
            unfold numBlocks at *
            rw [List.length_cons, hlen3, hnb2]
            rw [hcomm]
            rw [← hfilter_cons]
            omega
          · intro t ht
            rcases List.mem_cons.mp ht with rfl | ht
            · exact hcross2
            · exact hcross3 t ht

/-- When every derivation succeeds, seeding succeeds and produces the
members wrapped with their base costs. -/
theorem seedJoinGroup_total (env : Env) (hok : ∀ p, env.deriveErr p = none) :
    ∀ plans : List Plan, seedJoinGroup env plans =
      .ok (plans.map fun p => { p := p, cumCost := baseNodeCumCost env p })
  | [] => rfl
  | p :: rest => by
      have ih := seedJoinGroup_total env hok rest
      simp only [seedJoinGroup, hok p, ih]
      rw [List.map_cons]

/-- The sorted group is a permutation of the seeded members. -/
theorem sortedGroup_perm (env : Env) (plans : List Plan) :
    (sortedGroup env plans).Perm
      (plans.map fun p => { p := p, cumCost := baseNodeCumCost env p }) :=
  List.perm_insertionSort _ _

/-- The sorted group's plans are a permutation of the members. -/
theorem sortedGroup_map_p_perm (env : Env) (plans : List Plan) :
    ((sortedGroup env plans).map jrNode.p).Perm plans := by
  have h1 := (sortedGroup_perm env plans).map jrNode.p
  have h2 : ((plans.map fun p =>
      ({ p := p, cumCost := baseNodeCumCost env p } : jrNode)).map jrNode.p) = plans := by
    rw [List.map_map]
    exact List.map_id _
  rw [h2] at h1
  exact h1

/-- Every node of the sorted group carries its base cost. -/
theorem sortedGroup_costs (env : Env) (plans : List Plan) :
    ∀ r ∈ sortedGroup env plans, r.cumCost = baseNodeCumCost env r.p := by
  intro r hr
  have hr2 := (sortedGroup_perm env plans).mem_iff.mp hr
  obtain ⟨p, _, rfl⟩ := List.mem_map.mp hr2
  rfl

/-- The sorted group has one node per member. -/
theorem sortedGroup_length (env : Env) (plans : List Plan) :
    (sortedGroup env plans).length = plans.length := by
  have h1 := (sortedGroup_perm env plans).length_eq
  rw [List.length_map] at h1
  exact h1

/-- C8 (amended): for a join group in the benign clique setting — members
are distinct opaque leaves with pairwise disjoint schemas, the equality-edge
graph splits them into blocks that are cliques, every stats derivation
succeeds, and the nonnegative row counts are small enough that no cumulative
cost reaches math.MaxFloat64 — solve produces exactly one component tree per
block before bushy assembly and combines them with exactly (number of
blocks) - 1 predicate-free cross joins; a single component tree is returned
unchanged by the bushy assembler. -/
theorem solve_components_per_clique {env : Env} {eqEdges : List EqEdge}
    {members : List Plan} {blockOf : Plan → Nat} {M : ℤ} (conds : List OtherCond)
    (H : CliqueBlocks env eqEdges members blockOf M) :
    ∃ trees : List Plan,
      componentLoop env ((sortedGroup env members).length + 1)
        { curJoinGroup := sortedGroup env members, eqEdges := eqEdges,
          otherConds := conds } [] = .ok trees ∧
      trees.length = numBlocks blockOf members ∧
      solve env eqEdges conds members = (some (makeBushyJoin trees), none) ∧
      countCrossJoins (makeBushyJoin trees) = numBlocks blockOf members - 1 ∧
      (∀ t : Plan, makeBushyJoin [t] = t) := by
  have hsortperm := sortedGroup_map_p_perm env members
  have hpermR : ((sortedGroup env members).map jrNode.p ++ []).Perm members := by
    rw [List.append_nil]
    exact hsortperm
  obtain ⟨trees, heq, hlen, hcross⟩ := componentLoop_blocks (cliqueBlocks_conn H)
    ((sortedGroup env members).length + 1) (sortedGroup env members) conds [] []
    (Nat.lt_succ_self _) hpermR
    (fun m hm => absurd hm (List.not_mem_nil m))
    (sortedGroup_costs env members)
  rw [List.nil_append] at heq
  have hnb : numBlocks blockOf ((sortedGroup env members).map jrNode.p) =
      numBlocks blockOf members := by
    unfold numBlocks
    exact ((hsortperm.map blockOf).dedup).length_eq
  refine ⟨trees, heq, by rw [hlen, hnb], ?_, ?_, fun t => makeBushyJoin_singleton t⟩
  · rw [solve_seed_ok (seedJoinGroup_total env H.derive_ok members), heq]
  · by_cases hne : trees = []
    · rw [hne] at hlen ⊢
      simp only [List.length_nil] at hlen
      rw [← hnb, ← hlen]
      rfl
    · rw [makeBushyJoin_count trees hne]
      have hsum : (trees.map countCrossJoins).sum = 0 := by
        apply List.sum_eq_zero
        intro x hx
        obtain ⟨t2, ht2, rfl⟩ := List.mem_map.mp hx
        exact hcross t2 ht2
      rw [hsum, hlen, hnb, Nat.zero_add]

/-- Block assignment for the witness instance: pC sits alone in block 1,
everything else in block 0. -/
def blockOfW : Plan → Nat := fun p => if p = pC then 1 else 0

/-- The three members pA, pB, pC with the single edge 10 = 20 satisfy the
clique-blocks hypotheses: blocks {pA, pB} and {pC}. -/
theorem cliqueW : CliqueBlocks envOk [⟨10, 20⟩] [pA, pB, pC] blockOfW 1 := by
  refine ⟨?_, by decide, by decide, by decide, by decide,
    fun p => rfl, fun p => by show (0 : ℤ) ≤ 1; decide,
    fun p => by show (1 : ℤ) ≤ 1; decide, by decide⟩
  intro m hm
  rcases List.mem_cons.mp hm with rfl | hm
  · exact ⟨1, [10], rfl⟩
  rcases List.mem_cons.mp hm with rfl | hm
  · exact ⟨2, [20], rfl⟩
  rcases List.mem_cons.mp hm with rfl | hm
  · exact ⟨3, [30], rfl⟩
  exact absurd hm (List.not_mem_nil m)

/-- Witness for solve_components_per_clique: three members forming two
blocks yield two component trees and one cross join. -/
theorem solve_components_per_clique_witness :
    ∃ trees : List Plan,
      componentLoop envOk ((sortedGroup envOk [pA, pB, pC]).length + 1)
        { curJoinGroup := sortedGroup envOk [pA, pB, pC], eqEdges := [⟨10, 20⟩],
          otherConds := [] } [] = .ok trees ∧
      trees.length = numBlocks blockOfW [pA, pB, pC] ∧
      solve envOk [⟨10, 20⟩] [] [pA, pB, pC] = (some (makeBushyJoin trees), none) ∧
      countCrossJoins (makeBushyJoin trees) = numBlocks blockOfW [pA, pB, pC] - 1 ∧
      (∀ t : Plan, makeBushyJoin [t] = t) :=
  solve_components_per_clique [] cliqueW

/-- Counterexample to the literal C8 sentence: with both row estimates at
the math.MaxFloat64 sentinel, pA and pB form one connected component via the
edge 10 = 20, yet solve returns two component trees glued by one
predicate-free cross join rather than one tree for the one component. -/
theorem solve_components_per_clique_cex :
    componentLoop envMax 3
      { curJoinGroup := sortedGroup envMax [pA, pB], eqEdges := [⟨10, 20⟩],
        otherConds := [] } [] = .ok [pA, pB] ∧
    numBlocks (fun _ => 0) [pA, pB] = 1 ∧
    (⟨10, 20⟩ : EqEdge).lCol ∈ pA.schema ∧ (⟨10, 20⟩ : EqEdge).rCol ∈ pB.schema ∧
    solve envMax [⟨10, 20⟩] [] [pA, pB] = (some (Plan.join pA pB [] []), none) ∧
    countCrossJoins (Plan.join pA pB [] []) = 1 :=
  ⟨by rfl, by decide, by decide, by decide, by decide, by decide⟩

/-- No equality edge has both endpoint columns inside one single member:
edges link two distinct members with disjoint schemas. -/
theorem edgeInside_single_false {env : Env} {eqEdges : List EqEdge}
    {members : List Plan} {blockOf : Plan → Nat} {M : ℤ}
    (H : ConnBlocks env eqEdges members blockOf M)
    {m : Plan} (hm : m ∈ members) :
    ∀ e ∈ eqEdges, ¬ edgeInside [m] e = true := by
  intro e he hin
  obtain ⟨⟨a1, ha1, hl⟩, ⟨a2, ha2, hr⟩⟩ := edgeInside_iff.mp hin
  rw [List.mem_singleton] at ha1 ha2
  rw [ha1] at hl
  rw [ha2] at hr
  obtain ⟨a, ha, b, hb, hab, _, hla, hrb⟩ := H.edges_within e he
  have h1 : a = m := col_unique H.disjoint ha hm hla hl
  have h2 : b = m := col_unique H.disjoint hb hm hrb hr
  exact hab (h1.trans h2.symm)

/-- C4 (amended): when the equality edges connect the whole join group into
one component — members are distinct opaque leaves with pairwise disjoint
schemas, any two members are linked by a chain of equality edges (no direct
edge between each pair is required), every derivation succeeds, cumulative
costs stay strictly below the math.MaxFloat64 sentinel, there are at least
two members, and every column a residual predicate references belongs to
some member — a successful solve returns a tree in which every equality edge
(up to the orientation swap the connectivity check may apply) and every
residual predicate is attached to exactly one join node, and at every join
node the merged schema contains both columns of every attached equality
condition and every column of every attached residual predicate.  Without
the one-component restriction the claim fails: predicates spanning
disconnected components are dropped. -/
theorem predicates_attached_exactly_once {env : Env} {eqEdges : List EqEdge}
    {members : List Plan} {M : ℤ} {conds : List OtherCond}
    (H : ConnBlocks env eqEdges members (fun _ => 0) M)
    (hn : 2 ≤ members.length)
    (hcov : ∀ cd ∈ conds, ∀ c ∈ cd.cols, ∃ m ∈ members, c ∈ m.schema) :
    ∃ P : Plan, solve env eqEdges conds members = (some P, none) ∧
      (attachedConds P).Perm conds ∧
      ((attachedEdges P).map normPair).Perm (eqEdges.map normPair) ∧
      soundJoinsB P = true := by
  cases hs : sortedGroup env members with
  | nil =>
      exfalso
      have := sortedGroup_length env members
      rw [hs] at this
      simp only [List.length_nil] at this
      omega
  | cons seed rest =>
      have hmp : (seed.p :: rest.map jrNode.p).Perm members := by
        have h1 := sortedGroup_map_p_perm env members
        rw [hs, List.map_cons] at h1
        exact h1
      have hsmem : seed.p ∈ members :=
        hmp.mem_iff.mp (List.mem_cons_self _ _)
      obtain ⟨si, ss, hleaf⟩ := H.leaves seed.p hsmem
      have hseedcost : seed.cumCost = baseNodeCumCost env seed.p := by
        apply sortedGroup_costs env members
        rw [hs]
        exact List.mem_cons_self _ _
      have hrestcost : ∀ r ∈ rest, r.cumCost = baseNodeCumCost env r.p := by
        intro r hr
        apply sortedGroup_costs env members
        rw [hs]
        exact List.mem_cons_of_mem _ hr
      obtain ⟨t2, R2, conds2, absorbed2, heq, hperm2, _, hR2, _, hschema2,
          hconds2, hedges2, hsound2, _, hlast⟩ :=
        growLoop_absorbs_block H 0 (rest.length + 1) [seed.p] seed rest conds conds []
          (Nat.lt_succ_self _)
          (List.cons_ne_nil _ _)
          (fun m _ => rfl)
          (by rw [List.append_nil]; exact hmp)
          (fun m hm => absurd hm (List.not_mem_nil m))
          hrestcost
          (by intro c; simp)
          (by
            rw [hseedcost]
            simp only [List.map_cons, List.map_nil, List.sum_cons, List.sum_nil,
              List.length_cons, List.length_nil]
            omega)
          (by rw [hleaf]; exact List.Perm.refl conds)
          (by
            have hae : attachedEdges seed.p = [] := by rw [hleaf]; rfl
            have hfil : eqEdges.filter (edgeInside [seed.p]) = [] :=
              List.filter_eq_nil_iff.mpr (edgeInside_single_false H hsmem)
            rw [hae, hfil])
          (by rw [hleaf]; rfl)
          (by rw [hleaf]; rfl)
      have hR2nil : R2 = [] := by
        have hfil : (rest.map jrNode.p).filter
            (fun m => !((fun _ : Plan => 0) m == 0)) = [] := by
          apply List.filter_eq_nil_iff.mpr
          intro a _
          simp
        rw [hfil] at hR2
        exact (List.map_eq_nil_iff).mp hR2.eq_nil
      have habs2 : absorbed2.Perm members := by
        have hfil : (rest.map jrNode.p).filter
            (fun m => ((fun _ : Plan => 0) m == 0)) = rest.map jrNode.p := by
          apply List.filter_eq_self.mpr
          intro a _
          simp
        rw [hfil] at hperm2
        exact hperm2.trans hmp
      have hconds2nil : conds2 = [] := by
        rcases hlast with ⟨_, hR2eq, _⟩ | hpend
        · exfalso
          have hlen := sortedGroup_length env members
          rw [hs] at hlen
          rw [← hR2eq, hR2nil] at hlen
          simp only [List.length_cons, List.length_nil] at hlen
          omega
        · apply List.eq_nil_iff_forall_not_mem.mpr
          intro cd hcd
          have hcdconds : cd ∈ conds :=
            hconds2.mem_iff.mp (List.mem_append_right _ hcd)
          have hall : exprFromSchema cd t2.p.schema = true := by
            unfold exprFromSchema
            apply List.all_eq_true.mpr
            intro c hc
            obtain ⟨m, hm, hcm⟩ := hcov cd hcdconds c hc
            have hmabs : m ∈ absorbed2 := habs2.mem_iff.mpr hm
            exact List.elem_iff.mpr ((hschema2 c).mpr ⟨m, hmabs, hcm⟩)
          rw [hpend cd hcd] at hall
          exact Bool.false_ne_true hall
      have hcondsP : (attachedConds t2.p).Perm conds := by
        rw [hconds2nil, List.append_nil] at hconds2
        exact hconds2
      have hedgesP : ((attachedEdges t2.p).map normPair).Perm (eqEdges.map normPair) := by
        have hfil : eqEdges.filter (edgeInside absorbed2) = eqEdges := by
          apply List.filter_eq_self.mpr
          intro e he
          obtain ⟨a, ha, b, hb, _, _, hla, hrb⟩ := H.edges_within e he
          exact edgeInside_iff.mpr
            ⟨⟨a, habs2.mem_iff.mpr ha, hla⟩, ⟨b, habs2.mem_iff.mpr hb, hrb⟩⟩
        rw [hfil] at hedges2
        exact hedges2
      refine ⟨t2.p, ?_, hcondsP, hedgesP, hsound2⟩
      have hctree : constructConnectedJoinTree env
          { curJoinGroup := seed :: rest, eqEdges := eqEdges, otherConds := conds } =
          .ok (t2, { curJoinGroup := [], eqEdges := eqEdges, otherConds := [] }) := by
        rw [constructConnectedJoinTree_cons rfl]
        rw [← hR2nil, ← hconds2nil]
        exact heq
      have hcl : componentLoop env ((seed :: rest).length + 1)
          { curJoinGroup := seed :: rest, eqEdges := eqEdges, otherConds := conds } [] =
          .ok [t2.p] := by
        have hstep : componentLoop env ((seed :: rest).length + 1)
            { curJoinGroup := seed :: rest, eqEdges := eqEdges, otherConds := conds } [] =
            componentLoop env ((seed :: rest).length)
              { curJoinGroup := [], eqEdges := eqEdges, otherConds := [] }
              ([] ++ [t2.p]) := componentLoop_cons_ok rfl hctree
        rw [hstep, componentLoop_nil rfl, List.nil_append]
      rw [solve_seed_ok (seedJoinGroup_total env H.derive_ok members), hs, hcl]
      show (some (makeBushyJoin [t2.p]), (none : Option String)) = (some t2.p, none)
      rw [makeBushyJoin_singleton]

/-- The chain pA - pB - pC: the edges 10 = 20 and 20 = 30 connect the three
members into one component, with no direct edge between pA and pC, so the
group is connected but not a clique. -/
theorem connW4 : ConnBlocks envOk [⟨10, 20⟩, ⟨20, 30⟩] [pA, pB, pC] (fun _ => 0) 1 := by
  have mA : pA ∈ ([pA, pB, pC] : List Plan) := List.mem_cons_self _ _
  have mB : pB ∈ ([pA, pB, pC] : List Plan) :=
    List.mem_cons_of_mem _ (List.mem_cons_self _ _)
  have mC : pC ∈ ([pA, pB, pC] : List Plan) :=
    List.mem_cons_of_mem _ (List.mem_cons_of_mem _ (List.mem_cons_self _ _))
  have adjAB : memAdj [⟨10, 20⟩, ⟨20, 30⟩] [pA, pB, pC] pA pB :=
    ⟨mA, mB, ⟨10, 20⟩, List.mem_cons_self _ _, Or.inl ⟨by decide, by decide⟩⟩
  have adjBA : memAdj [⟨10, 20⟩, ⟨20, 30⟩] [pA, pB, pC] pB pA :=
    ⟨mB, mA, ⟨10, 20⟩, List.mem_cons_self _ _, Or.inr ⟨by decide, by decide⟩⟩
  have adjBC : memAdj [⟨10, 20⟩, ⟨20, 30⟩] [pA, pB, pC] pB pC :=
    ⟨mB, mC, ⟨20, 30⟩, List.mem_cons_of_mem _ (List.mem_cons_self _ _),
      Or.inl ⟨by decide, by decide⟩⟩
  have adjCB : memAdj [⟨10, 20⟩, ⟨20, 30⟩] [pA, pB, pC] pC pB :=
    ⟨mC, mB, ⟨20, 30⟩, List.mem_cons_of_mem _ (List.mem_cons_self _ _),
      Or.inr ⟨by decide, by decide⟩⟩
  have hAB := Relation.ReflTransGen.single adjAB
  have hBA := Relation.ReflTransGen.single adjBA
  have hBC := Relation.ReflTransGen.single adjBC
  have hCB := Relation.ReflTransGen.single adjCB
  have hAC := hAB.tail adjBC
  have hCA := hCB.tail adjBA
  refine ⟨?_, by decide, by decide, by decide, ?_,
    fun p => rfl, fun p => by show (0 : ℤ) ≤ 1; decide,
    fun p => by show (1 : ℤ) ≤ 1; decide, by decide⟩
  · intro m hm
    rcases List.mem_cons.mp hm with rfl | hm
    · exact ⟨1, [10], rfl⟩
    rcases List.mem_cons.mp hm with rfl | hm
    · exact ⟨2, [20], rfl⟩
    rcases List.mem_cons.mp hm with rfl | hm
    · exact ⟨3, [30], rfl⟩
    exact absurd hm (List.not_mem_nil m)
  · intro a ha b hb _
    rcases List.mem_cons.mp ha with rfl | ha
    · rcases List.mem_cons.mp hb with rfl | hb
      · exact Relation.ReflTransGen.refl
      rcases List.mem_cons.mp hb with rfl | hb
      · exact hAB
      rcases List.mem_cons.mp hb with rfl | hb
      · exact hAC
      exact absurd hb (List.not_mem_nil b)
    rcases List.mem_cons.mp ha with rfl | ha
    · rcases List.mem_cons.mp hb with rfl | hb
      · exact hBA
      rcases List.mem_cons.mp hb with rfl | hb
      · exact Relation.ReflTransGen.refl
      rcases List.mem_cons.mp hb with rfl | hb
      · exact hBC
      exact absurd hb (List.not_mem_nil b)
    rcases List.mem_cons.mp ha with rfl | ha
    · rcases List.mem_cons.mp hb with rfl | hb
      · exact hCA
      rcases List.mem_cons.mp hb with rfl | hb
      · exact hCB
      rcases List.mem_cons.mp hb with rfl | hb
      · exact Relation.ReflTransGen.refl
      exact absurd hb (List.not_mem_nil b)
    exact absurd ha (List.not_mem_nil a)

/-- Witness for predicates_attached_exactly_once on the chain scenario: the
edge graph pA - pB - pC is connected but not a clique, and the residual
predicate references columns of pA and pC, two members with no direct
edge. -/
theorem predicates_attached_exactly_once_witness :
    ∃ P : Plan, solve envOk [⟨10, 20⟩, ⟨20, 30⟩]
        [{ id := 0, cols := [10, 30] }] [pA, pB, pC] = (some P, none) ∧
      (attachedConds P).Perm [{ id := 0, cols := [10, 30] }] ∧
      ((attachedEdges P).map normPair).Perm
        (([⟨10, 20⟩, ⟨20, 30⟩] : List EqEdge).map normPair) ∧
      soundJoinsB P = true :=
  predicates_attached_exactly_once connW4 (by decide) (by decide)

/-- Counterexample to the literal C4 sentence: with no equality edges, the
residual predicate over columns 10 and 20 spans the two cartesian components
pA and pB.  The final cross join's schema contains both referenced columns,
so the predicate could be attached there, yet the finished tree carries no
residual predicate at all: the predicate is silently dropped, not attached
to exactly one join node. -/
theorem predicates_attached_exactly_once_cex :
    solve envOk [] [{ id := 0, cols := [10, 20] }] [pA, pB] =
      (some (Plan.join pA pB [] []), none) ∧
    (∀ c ∈ ({ id := 0, cols := [10, 20] } : OtherCond).cols,
      c ∈ (Plan.join pA pB [] []).schema) ∧
    attachedConds (Plan.join pA pB [] []) = [] :=
  ⟨by decide, by decide, by decide⟩

end JoinReorderGreedy
